import Mathlib

/-!
Verification development for the snakemake workflow-engine core.

The first part embeds the api layer (`snakemake/api.py`): snakefile
resolution, the context-manager discipline of `SnakemakeApi`, the executor
plugin registry, and the settings validation performed by
`DAGApi.execute_workflow`.

The later parts model, from the specification, the pattern matcher
(`Match`/`Resolve`), the DAG builder (`BuildGraph`) and the
resource-constrained scheduler (`Run`), and prove the specified
properties: match/resolve round-trip, acyclicity and deduplication of the
built graph, the resource and dependency-ordering invariants, and the
partial-failure semantics.
-/

namespace Snakemake

/-- Errors surfaced by the api layer.  `apiError` carries the
human-readable message of the Python `ApiError`. -/
inductive ApiErr where
  | apiError (msg : String)
  | pluginNotFound (name : String)
deriving Repr, DecidableEq

/-! ## Snakefile resolution (`snakemake/api.py, resolve_snakefile`)

`SNAKEFILE_CHOICES` lives outside the given sources, so the list of
candidate paths is a parameter; the filesystem is an existence oracle. -/

/-- Embedding of `resolve_snakefile`: with no explicit path, return the
first existing candidate from `choices` or fail with `ApiError`; an
explicit path is returned unchanged, without any existence check. -/
def resolve_snakefile (choices : List String) (fs : String → Bool) :
    Option String → Except ApiErr String
  | none =>
    match choices.find? fs with
    | some p => .ok p
    | none =>
      .error (.apiError ("No Snakefile found, tried " ++ String.intercalate ", " choices ++ "."))
  | some p => .ok p

/-- The part of `WorkflowApi` the api-layer claims need: construction runs
`_check`, which raises `ApiError` when the snakefile does not exist. -/
structure WorkflowApi where
  snakefile : String
deriving Repr, DecidableEq

/-- Embedding of `WorkflowApi.__post_init__`/`_check`: constructing the
workflow api fails with `ApiError` when the snakefile does not exist. -/
def mk_workflow_api (fs : String → Bool) (snakefile : String) :
    Except ApiErr WorkflowApi :=
  if fs snakefile then .ok { snakefile := snakefile }
  else .error (.apiError ("Snakefile \"" ++ snakefile ++ "\" not found."))

/-- The mutable state of a `SnakemakeApi` object that the context-manager
discipline touches: the `_is_in_context` flag and whether a workflow api
has been created (`_workflow_api is not None`). -/
structure SnakemakeApi where
  is_in_context : Bool
  has_workflow_api : Bool
deriving Repr, DecidableEq

/-- A fresh `SnakemakeApi()`: not in a with-statement, no workflow api. -/
def SnakemakeApi.init : SnakemakeApi :=
  { is_in_context := false, has_workflow_api := false }

/-- The message raised by `SnakemakeApi._check_is_in_context`. -/
def inContextMsg : String :=
  "This method can only be called when SnakemakeApi is used within a with statement."

/-- Embedding of `SnakemakeApi.__enter__`: set the `_is_in_context` flag. -/
def SnakemakeApi.enter (st : SnakemakeApi) : SnakemakeApi :=
  { st with is_in_context := true }

/-- Embedding of `SnakemakeApi.__exit__`: clear the flag and run
`_cleanup` (which only touches the logger and working directory, neither
of which is part of this state). -/
def SnakemakeApi.exit (st : SnakemakeApi) : SnakemakeApi :=
  { st with is_in_context := false }

/-- Embedding of `SnakemakeApi.workflow`: check the context flag, resolve
the snakefile, construct the workflow api (which checks existence), and
record it on the state.  Any failure leaves the state without a workflow
api. -/
def SnakemakeApi.workflow (fs : String → Bool) (choices : List String)
    (st : SnakemakeApi) (snakefile : Option String) :
    Except ApiErr (SnakemakeApi × WorkflowApi) :=
  if st.is_in_context then
    match resolve_snakefile choices fs snakefile with
    | .error e => .error e
    | .ok sf =>
      match mk_workflow_api fs sf with
      | .error e => .error e
      | .ok wapi => .ok ({ st with has_workflow_api := true }, wapi)
  else .error (.apiError inContextMsg)

/-! ## Executor plugin registry (`snakemake/api.py, _get_executor_plugin_registry`) -/

/-- The `common_settings` of an executor plugin that `execute_workflow`
consults. -/
structure CommonSettings where
  local_exec : Bool
  dryrun_exec : Bool
  touch_exec : Bool
  implies_no_shared_fs : Bool
deriving Repr, DecidableEq

/-- An executor plugin, reduced to the data `execute_workflow` uses. -/
structure ExecutorPlugin where
  common_settings : CommonSettings
deriving Repr, DecidableEq

/-- Modelled from the spec: the `local` executor module
(`snakemake/executors/local.py` is not among the given sources).  It runs
jobs locally and is neither a dry-run nor a touch backend. -/
def local_executor : ExecutorPlugin :=
  { common_settings :=
      { local_exec := true, dryrun_exec := false, touch_exec := false
        implies_no_shared_fs := false } }

/-- Modelled from the spec: the `dryrun` executor module walks the graph
locally without side effects. -/
def dryrun_executor : ExecutorPlugin :=
  { common_settings :=
      { local_exec := true, dryrun_exec := true, touch_exec := false
        implies_no_shared_fs := false } }

/-- Modelled from the spec: the `touch` executor module marks outputs
fresh locally without running commands. -/
def touch_executor : ExecutorPlugin :=
  { common_settings :=
      { local_exec := true, dryrun_exec := false, touch_exec := true
        implies_no_shared_fs := false } }

/-- An `ExecutorPluginRegistry`: a name-indexed collection of plugins. -/
abbrev Registry := List (String × ExecutorPlugin)

/-- `registry.register_plugin(name, module)`. -/
def Registry.register_plugin (r : Registry) (name : String) (p : ExecutorPlugin) : Registry :=
  r ++ [(name, p)]

/-- `registry.get_plugin(name)`. -/
def Registry.get_plugin (r : Registry) (name : String) : Option ExecutorPlugin :=
  List.lookup name r

/-- Embedding of `_get_executor_plugin_registry`: the registry the
constructor discovers from the environment (`base`, possibly empty) with
the `local`, `dryrun` and `touch` backends registered on top. -/
def _get_executor_plugin_registry (base : Registry) : Registry :=
  Registry.register_plugin
    (Registry.register_plugin
      (Registry.register_plugin base "local" local_executor)
      "dryrun" dryrun_executor)
    "touch" touch_executor

/-! ## `DAGApi.execute_workflow` settings validation -/

/-- The `ResourceSettings` fields consulted by `execute_workflow`. -/
structure ResourceSettings where
  cores : Option Nat
  nodes : Option Nat
  default_resources : Option Bool
deriving Repr, DecidableEq

/-- The `StorageSettings` fields consulted by `execute_workflow`. -/
structure StorageSettings where
  notemp : Bool
  assume_shared_fs : Bool
deriving Repr, DecidableEq

/-- The `ExecutionSettings` fields consulted by `execute_workflow`. -/
structure ExecutionSettings where
  debug : Bool
  edit_notebook : Option String
  use_threads : Bool
deriving Repr, DecidableEq

/-- The `RemoteExecutionSettings` fields consulted by `execute_workflow`. -/
structure RemoteExecutionSettings where
  immediate_submit : Bool
deriving Repr, DecidableEq

/-- The observable outcome of a successful `execute_workflow` call: the
plugin selected from the registry and the settings as mutated by the
validation code, handed to `workflow.execute`. -/
structure ExecOutcome where
  plugin_name : String
  plugin : ExecutorPlugin
  resource_settings : ResourceSettings
  storage_settings : StorageSettings
  execution_settings : ExecutionSettings
deriving Repr, DecidableEq

/-- Message for missing cores under plain local execution. -/
def coresMsg : String :=
  "cores have to be specified for local execution (use --cores N with N being a number >= 1 or 'all')"

/-- Message for missing nodes under remote execution. -/
def nodesMsg : String :=
  "maximum number of parallel jobs/used nodes has to be specified for remote execution (use --jobs N with N being a number >= 1)"

/-- Message for immediate_submit without notemp. -/
def immediateSubmitMsg : String :=
  "immediate_submit has to be combined with notemp (it does not support temp file handling)"

/-- Message for debug mode with more than one core. -/
def debugCoresMsg : String :=
  "debug mode cannot be used with multi-core execution, please enforce a single core by setting --cores 1"

/-- Shared tail of `execute_workflow`: force `use_threads` when not on a
posix platform or not executing locally, then hand over to
`workflow.execute`. -/
def execute_workflow_finish (osIsPosix : Bool) (executor : String)
    (p : ExecutorPlugin) (res : ResourceSettings) (stor : StorageSettings)
    (es : ExecutionSettings) : Except ApiErr ExecOutcome :=
  .ok { plugin_name := executor, plugin := p, resource_settings := res
        storage_settings := stor
        execution_settings :=
          { es with use_threads :=
              es.use_threads || !osIsPosix || !p.common_settings.local_exec } }

/-- Tail of the local-execution branch of `execute_workflow`, after the
cores check: reject debug mode with more than one core. -/
def execute_workflow_local (osIsPosix : Bool) (executor : String)
    (p : ExecutorPlugin) (res : ResourceSettings) (stor : StorageSettings)
    (es : ExecutionSettings) : Except ApiErr ExecOutcome :=
  if es.debug && res.cores.getD 0 > 1 then .error (.apiError debugCoresMsg)
  else execute_workflow_finish osIsPosix executor p res stor es

/-- The default_resources mutation of the non-local branch: default to
the full `DefaultResources` when none are set. -/
def with_full_default_resources (res : ResourceSettings) : ResourceSettings :=
  if res.default_resources = none then { res with default_resources := some true }
  else res

/-- The non-local branch of `execute_workflow`: require `nodes`, default
`default_resources` to full, and reject notebook edit mode and debug
mode. -/
def execute_workflow_remote (osIsPosix : Bool) (executor : String)
    (p : ExecutorPlugin) (res : ResourceSettings) (stor : StorageSettings)
    (es : ExecutionSettings) : Except ApiErr ExecOutcome :=
  if res.nodes = none then .error (.apiError nodesMsg)
  else if es.edit_notebook.isSome then
    .error (.apiError "notebook edit mode is only allowed with local execution.")
  else if es.debug then
    .error (.apiError "debug mode cannot be used with non-local execution")
  else
    execute_workflow_finish osIsPosix executor p
      (with_full_default_resources res) stor es

/-- Embedding of `DAGApi.execute_workflow` (validation pipeline): check
the immediate_submit/notemp combination, resolve the executor plugin from
the registry, drop `assume_shared_fs` when the plugin implies no shared
filesystem, then validate cores/nodes as the branch requires. -/
def execute_workflow (base : Registry) (osIsPosix : Bool) (executor : String)
    (res : ResourceSettings) (stor : StorageSettings)
    (es : ExecutionSettings) (rs : RemoteExecutionSettings) :
    Except ApiErr ExecOutcome :=
  if rs.immediate_submit && !stor.notemp then .error (.apiError immediateSubmitMsg)
  else
    match Registry.get_plugin (_get_executor_plugin_registry base) executor with
    | none => .error (.pluginNotFound executor)
    | some p =>
      let stor :=
        if p.common_settings.implies_no_shared_fs then
          { stor with assume_shared_fs := false }
        else stor
      if p.common_settings.local_exec then
        if !p.common_settings.dryrun_exec && !p.common_settings.touch_exec then
          match res.cores with
          | none => .error (.apiError coresMsg)
          | some _ => execute_workflow_local osIsPosix executor p res stor es
        else
          let res :=
            if res.cores = none then { res with cores := some 1 } else res
          execute_workflow_local osIsPosix executor p res stor es
      else execute_workflow_remote osIsPosix executor p res stor es

/-! ## Pattern matcher (spec §4.1)

Modelled from the spec: the wildcard pattern matcher (the `Match` and
`Resolve` operations of §4.1; in the repository this lives in the io and
rules modules, which are not among the given sources).  A pattern is a
sequence of literal segments and named wildcard segments; a wildcard
matches any non-empty string minimally, preferring the leftmost wildcard
to bind the shorter substring (lazy-left); a wildcard already bound must
match exactly its bound value. -/

/-- A concrete path, as a list of characters. -/
abbrev Fpath := List Char

/-- One segment of a path pattern: a literal piece or a named wildcard. -/
inductive Segment where
  | lit (s : List Char)
  | wc (name : String)
deriving Repr, DecidableEq

/-- A path pattern: literal segments interleaved with named wildcards. -/
abbrev Pattern := List Segment

/-- A wildcard binding: mapping from wildcard name to concrete value. -/
abbrev Binding := List (String × List Char)

mutual

/-- Modelled from the spec: match a pattern suffix against a path suffix
under an accumulated binding.  Literals must be prefixes; a bound
wildcard behaves as a literal (its bound value); an unbound wildcard
tries non-empty prefixes shortest-first (lazy). -/
def matchFrom (b : Binding) : Pattern → Fpath → Option Binding
  | [], [] => some b
  | [], _ :: _ => none
  | .lit s :: rest, cs =>
    if s.isPrefixOf cs then matchFrom b rest (cs.drop s.length) else none
  | .wc n :: rest, cs =>
    match List.lookup n b with
    | some v =>
      if v.isPrefixOf cs then matchFrom b rest (cs.drop v.length) else none
    | none => matchWc b n rest [] cs
termination_by segs cs => 2 * cs.length + 2 * segs.length

/-- Lazy search for the value of wildcard `n`: extend the candidate value
`acc` one character at a time, trying the shortest extension first. -/
def matchWc (b : Binding) (n : String) (rest : Pattern) (acc : Fpath) :
    Fpath → Option Binding
  | [] => none
  | c :: cs =>
    match matchFrom ((n, acc ++ [c]) :: b) rest cs with
    | some r => some r
    | none => matchWc b n rest (acc ++ [c]) cs
termination_by cs => 2 * cs.length + 2 * rest.length + 1

end

/-- Modelled from the spec: `Match(pattern, concretePath)` returns a
wildcard binding, or no-match. -/
def Match (pattern : Pattern) (path : Fpath) : Option Binding :=
  matchFrom [] pattern path

/-- Modelled from the spec: substitute bound wildcard values into a
pattern; fails (the `AmbiguousWildcards` condition) when a wildcard
required by the pattern has no binding. -/
def resolvePattern (b : Binding) : Pattern → Option Fpath
  | [] => some []
  | .lit s :: rest => (resolvePattern b rest).map (s ++ ·)
  | .wc n :: rest =>
    match List.lookup n b with
    | some v => (resolvePattern b rest).map (v ++ ·)
    | none => none

/-- `b` extends `b0`: every binding visible in `b0` is visible in `b`. -/
def BindingExt (b0 b : Binding) : Prop :=
  ∀ n v, List.lookup n b0 = some v → List.lookup n b = some v

/-! ## DAG builder (spec §4.2)

Modelled from the spec: the DAG builder (the `BuildGraph` operation; in
the repository this is the dag module, which is not among the given
sources).  A work list of required concrete paths is seeded with the
targets; each unresolved path is either a source leaf (exists on the
filesystem and no rule produces it) or is produced by exactly one
matching rule, whose job is created or deduplicated by its
(rule identity, wildcard binding) key and linked to the producers of its
inputs.  An active resolution stack detects cyclic dependencies, and a
job whose resolved resource demand exceeds the declared total capacity of
some resource is rejected at build time. -/

/-- Modelled from the spec: an immutable rule definition.  Resource
demand maps a resource index to the requested amount and may depend on
the wildcard binding. -/
structure Rule where
  name : String
  inputs : List Pattern
  outputs : List Pattern
  demand : Binding → Nat → Nat
  priority : Nat

/-- A job key: (rule identity, wildcard binding); jobs are uniquely
identified by this pair. -/
abbrev JobKey := String × Binding

/-- A concrete job of the built graph: its key, resolved concrete input
and output paths, resolved resource demand, and the keys of the jobs
producing its inputs (source-leaf inputs have no producing job). -/
structure BJob where
  key : JobKey
  inputs : List Fpath
  outputs : List Fpath
  demand : Nat → Nat
  deps : List JobKey

/-- Graph-construction errors (spec §7). -/
inductive BErr where
  | MissingProducer (path : Fpath)
  | AmbiguousRule (path : Fpath)
  | CyclicDependency (cycle : List Fpath)
  | AmbiguousWildcards (rule : String)
  | ResourceUnsatisfiable (rule : String)
  | DepthLimit
deriving Repr, DecidableEq

/-- The builder state: the paths resolved so far (each with its producing
job's key, or `none` for a source leaf), and the jobs created so far in
creation order. -/
structure BState where
  resolved : List (Fpath × Option JobKey)
  jobs : List BJob

/-- The first output pattern of a list that matches the path, with its
binding. -/
def firstMatch (path : Fpath) : List Pattern → Option Binding
  | [] => none
  | p :: ps =>
    match Match p path with
    | some b => some b
    | none => firstMatch path ps

/-- All rules whose output pattern set matches `path`, each with the
binding extracted by the match. -/
def ruleMatches (rules : List Rule) (path : Fpath) : List (Rule × Binding) :=
  rules.filterMap fun r => (firstMatch path r.outputs).map fun b => (r, b)

/-- Resolve every pattern of a list under a binding; fails when some
wildcard required by a pattern has no binding (`AmbiguousWildcards`). -/
def resolveAll (b : Binding) : List Pattern → Option (List Fpath)
  | [] => some []
  | p :: ps =>
    match resolvePattern b p, resolveAll b ps with
    | some x, some xs => some (x :: xs)
    | _, _ => none

mutual

/-- Modelled from the spec: resolve one required concrete path.  Checks
the active resolution stack (cycle detection), the memo of already
resolved paths (deduplication), then classifies the path as source leaf,
missing producer, ambiguous, or uniquely produced; in the last case the
producing job is created (unless its key already exists), after its
concrete inputs are recursively resolved with the path pushed on the
stack.  Returns the new state and the producing job's key (`none` for a
source leaf).  `fuel` bounds the recursion depth; the spec's algorithm
has no such bound, and `DepthLimit` stands for non-termination on
infinite rule chains. -/
def resolvePath (rules : List Rule) (fs : Fpath → Bool) (nRes : Nat)
    (cap : Nat → Nat) :
    Nat → List Fpath → BState → Fpath → Except BErr (BState × Option JobKey)
  | 0, _, _, _ => .error .DepthLimit
  | fuel + 1, stack, st, path =>
    if path ∈ stack then .error (.CyclicDependency (path :: stack))
    else
      match st.resolved.lookup path with
      | some prod => .ok (st, prod)
      | none =>
        match ruleMatches rules path with
        | [] =>
          if fs path then
            .ok ({ st with resolved := (path, none) :: st.resolved }, none)
          else .error (.MissingProducer path)
        | [(r, b)] =>
          if (r.name, b) ∈ st.jobs.map BJob.key then
            .ok ({ st with resolved := (path, some (r.name, b)) :: st.resolved },
              some (r.name, b))
          else
            match resolveAll b r.inputs, resolveAll b r.outputs with
            | some ins, some outs =>
              if ∀ i < nRes, r.demand b i ≤ cap i then
                match resolveList rules fs nRes cap fuel (path :: stack) st ins with
                | .error e => .error e
                | .ok (st', prods) =>
                  if (r.name, b) ∈ st'.jobs.map BJob.key then
                    .ok ({ st' with
                        resolved := (path, some (r.name, b)) :: st'.resolved },
                      some (r.name, b))
                  else
                    .ok ({ st' with
                        resolved := (path, some (r.name, b)) :: st'.resolved
                        jobs := st'.jobs ++
                          [{ key := (r.name, b), inputs := ins, outputs := outs
                             demand := r.demand b, deps := prods.filterMap id }] },
                      some (r.name, b))
              else .error (.ResourceUnsatisfiable r.name)
            | _, _ => .error (.AmbiguousWildcards r.name)
        | _ => .error (.AmbiguousRule path)
termination_by fuel _ _ _ => (fuel, 0)

/-- Resolve a list of required paths in order, threading the state and
collecting each path's producer. -/
def resolveList (rules : List Rule) (fs : Fpath → Bool) (nRes : Nat)
    (cap : Nat → Nat) :
    Nat → List Fpath → BState → List Fpath →
    Except BErr (BState × List (Option JobKey))
  | _, _, st, [] => .ok (st, [])
  | fuel, stack, st, p :: ps =>
    match resolvePath rules fs nRes cap fuel stack st p with
    | .error e => .error e
    | .ok (st', prod) =>
      match resolveList rules fs nRes cap fuel stack st' ps with
      | .error e => .error e
      | .ok (st'', prods) => .ok (st'', prod :: prods)
termination_by fuel _ _ paths => (fuel, paths.length + 1)

end

/-- Modelled from the spec: `BuildGraph(targets, rules)` resolves every
target against an initially empty state. -/
def BuildGraph (rules : List Rule) (fs : Fpath → Bool) (nRes : Nat)
    (cap : Nat → Nat) (fuel : Nat) (targets : List Fpath) :
    Except BErr BState :=
  match resolveList rules fs nRes cap fuel [] ⟨[], []⟩ targets with
  | .error e => .error e
  | .ok (st, _) => .ok st

/-- The edge relation of a built graph on job indices: `i → j` when job
`j` lists job `i`'s key among its dependencies (`j` consumes an output of
`i`). -/
def JobEdge (jobs : List BJob) (i j : Nat) : Prop :=
  ∃ (hi : i < jobs.length) (hj : j < jobs.length),
    jobs[i].key ∈ jobs[j].deps

/-- A directed cycle in a relation on `Nat`: a nonempty chain of edges
from some vertex back to itself. -/
def HasCycle (E : Nat → Nat → Prop) : Prop :=
  ∃ v l, List.Chain E v (l ++ [v])

/-- Well-formedness of a builder state under capacities `(nRes, cap)`:
job keys are unique; every producer recorded in the memo is a created
job; every dependency of a job points to a job created strictly earlier;
and every job's demand is within capacity. -/
structure BWF (nRes : Nat) (cap : Nat → Nat) (st : BState) : Prop where
  nodupKeys : (st.jobs.map BJob.key).Nodup
  resolvedKeys : ∀ p k, (p, some k) ∈ st.resolved → k ∈ st.jobs.map BJob.key
  depsBefore : ∀ (j : Nat) (hj : j < st.jobs.length),
    ∀ k ∈ st.jobs[j].deps,
      ∃ i, ∃ (hi : i < st.jobs.length), i < j ∧ st.jobs[i].key = k
  demandOk : ∀ j ∈ st.jobs, ∀ i < nRes, j.demand i ≤ cap i

/-- A genuinely circular rule set: rule `A` produces `a.o` from `b.o`. -/
def ruleA : Rule :=
  { name := "A", inputs := [[Segment.lit ['b', '.', 'o']]]
    outputs := [[Segment.lit ['a', '.', 'o']]]
    demand := fun _ _ => 0, priority := 0 }

/-- A genuinely circular rule set: rule `B` produces `b.o` from `a.o`. -/
def ruleB : Rule :=
  { name := "B", inputs := [[Segment.lit ['a', '.', 'o']]]
    outputs := [[Segment.lit ['b', '.', 'o']]]
    demand := fun _ _ => 0, priority := 0 }

/-- A rule with two outputs and no inputs, for the deduplication
scenario: requesting both outputs must yield a single job. -/
def ruleC : Rule :=
  { name := "C", inputs := []
    outputs := [[Segment.lit ['p', '.', 'o']], [Segment.lit ['q', '.', 'o']]]
    demand := fun _ _ => 0, priority := 0 }

/-! ## Scheduler (spec §§4.3, 5)

Modelled from the spec: the resource-constrained scheduler (the `Run`
operation; in the repository the scheduler module is not among the given
sources).  The job graph is abstracted to per-job predecessor index
lists; the coordinator repeatedly marks jobs with permanently failed or
skipped predecessors as skipped, greedily dispatches ready jobs in
priority order while their full resource vector fits the remaining pool
capacity, and processes one asynchronous completion signal at a time,
returning the job's resources to the pool and applying the retry
policy. -/

/-- A schedulable job: indices of the jobs that must complete before it,
its resource demand per resource index, and its priority. -/
structure SJob where
  deps : List Nat
  demand : Nat → Nat
  priority : Nat

/-- Job lifecycle states (spec §3): `failedPerm` is `failed` with retries
exhausted. -/
inductive JState where
  | pending
  | running
  | completed
  | failedPerm
  | skipped
deriving Repr, DecidableEq

/-- Per-job scheduler bookkeeping: lifecycle state and the number of
completed run attempts. -/
structure JRec where
  state : JState
  attempts : Nat
deriving Repr, DecidableEq

/-- Scheduler state: one record per job (indexed like the job list) and
the currently available capacity per resource. -/
structure SState where
  recs : List JRec
  avail : Nat → Nat

/-- Scheduler configuration: the job graph, the resource dimension and
declared total capacities, the retry policy bound (total allowed runs per
job), and the executor outcome oracle (job index and attempt number to
success). -/
structure SConfig where
  jobs : List SJob
  nRes : Nat
  cap : Nat → Nat
  maxAttempts : Nat
  outcome : Nat → Nat → Bool

/-- The record of job `i` (out-of-range indices read as terminal). -/
def getRec (recs : List JRec) (i : Nat) : JRec :=
  (recs[i]?).getD ⟨.skipped, 0⟩

/-- The static job data of index `i`. -/
def jobAt (cfg : SConfig) (i : Nat) : SJob :=
  (cfg.jobs[i]?).getD ⟨[], fun _ => 0, 0⟩

/-- Readiness (spec §4.3 step 1, plus the retry bound): pending, every
dependency completed, attempts left. -/
def isReady (cfg : SConfig) (recs : List JRec) (i : Nat) : Prop :=
  (getRec recs i).state = .pending ∧
  (∀ d ∈ (jobAt cfg i).deps, (getRec recs d).state = .completed) ∧
  (getRec recs i).attempts < cfg.maxAttempts

instance (cfg : SConfig) (recs : List JRec) (i : Nat) :
    Decidable (isReady cfg recs i) := by
  unfold isReady
  infer_instance

/-- The job's full resource vector fits the remaining capacity. -/
def fits (cfg : SConfig) (avail : Nat → Nat) (i : Nat) : Prop :=
  ∀ r < cfg.nRes, (jobAt cfg i).demand r ≤ avail r

instance (cfg : SConfig) (avail : Nat → Nat) (i : Nat) :
    Decidable (fits cfg avail i) := by
  unfold fits
  infer_instance

/-- Atomic dispatch (spec §4.3 steps 2-3): admit job `i` when it is ready
and its demand fits, marking it running and decrementing the pool. -/
def dispatchOne (cfg : SConfig) (s : SState) (i : Nat) : SState :=
  if isReady cfg s.recs i ∧ fits cfg s.avail i then
    { recs := s.recs.set i ⟨.running, (getRec s.recs i).attempts⟩
      avail := fun r => s.avail r - (jobAt cfg i).demand r }
  else s

/-- Atomic skip propagation (spec §4.3 failure policy): a pending job
with a permanently failed or skipped predecessor becomes skipped, and is
never dispatched. -/
def skipOne (cfg : SConfig) (recs : List JRec) (i : Nat) : List JRec :=
  if (getRec recs i).state = .pending ∧
      ∃ d ∈ (jobAt cfg i).deps,
        (getRec recs d).state = .failedPerm ∨ (getRec recs d).state = .skipped
  then recs.set i ⟨.skipped, (getRec recs i).attempts⟩
  else recs

/-- Atomic completion (spec §4.3 step 4): return the job's resources to
the pool and apply the outcome: success completes the job, failure
re-enters `pending` while attempts remain and otherwise makes it
permanently failed. -/
def completeJob (cfg : SConfig) (s : SState) (i : Nat) : SState :=
  if cfg.outcome i (getRec s.recs i).attempts then
    { recs := s.recs.set i ⟨.completed, (getRec s.recs i).attempts + 1⟩
      avail := fun r => s.avail r + (jobAt cfg i).demand r }
  else if (getRec s.recs i).attempts + 1 < cfg.maxAttempts then
    { recs := s.recs.set i ⟨.pending, (getRec s.recs i).attempts + 1⟩
      avail := fun r => s.avail r + (jobAt cfg i).demand r }
  else
    { recs := s.recs.set i ⟨.failedPerm, (getRec s.recs i).attempts + 1⟩
      avail := fun r => s.avail r + (jobAt cfg i).demand r }

/-- One left-to-right skip-propagation pass over all jobs. -/
def skipMark (cfg : SConfig) (recs : List JRec) : List JRec :=
  (List.range recs.length).foldl (skipOne cfg) recs

/-- Insert an index into a priority-descending list (spec §4.3 step 2's
deterministic dispatch order). -/
def insertByPriority (cfg : SConfig) (i : Nat) : List Nat → List Nat
  | [] => [i]
  | j :: l =>
    if (jobAt cfg j).priority ≤ (jobAt cfg i).priority then i :: j :: l
    else j :: insertByPriority cfg i l

/-- Sort indices by priority, descending. -/
def sortByPriority (cfg : SConfig) : List Nat → List Nat
  | [] => []
  | i :: l => insertByPriority cfg i (sortByPriority cfg l)

/-- The greedy dispatch phase: consider all jobs in priority order and
admit each that is ready and fits the remaining pool. -/
def dispatchPhase (cfg : SConfig) (s : SState) : SState :=
  (sortByPriority cfg (List.range s.recs.length)).foldl (dispatchOne cfg) s

/-- The first running job, if any (the next completion signal to
process). -/
def firstRunning (recs : List JRec) : Option Nat :=
  (List.range recs.length).find? fun i =>
    (getRec recs i).state == .running

/-- The skip-propagation phase as a state transformer. -/
def skipMarkState (cfg : SConfig) (s : SState) : SState :=
  { s with recs := skipMark cfg s.recs }

/-- Modelled from the spec: the scheduler loop `Run` (spec §4.3).  Each
iteration propagates skips, greedily dispatches ready jobs under the
resource pool, and, if any job is running, processes one completion
signal; the loop ends when no job is running after dispatch.  `fuel`
bounds the iteration count; any fuel at least `smeasure` of the state is
enough to reach the terminal state. -/
def runLoop (cfg : SConfig) : Nat → SState → SState
  | 0, s => s
  | fuel + 1, s =>
    match firstRunning (dispatchPhase cfg (skipMarkState cfg s)).recs with
    | none => dispatchPhase cfg (skipMarkState cfg s)
    | some i =>
      runLoop cfg fuel
        (completeJob cfg (dispatchPhase cfg (skipMarkState cfg s)) i)

/-- The initial scheduler state: all jobs pending with no attempts, full
capacity available. -/
def initState (cfg : SConfig) : SState :=
  { recs := List.replicate cfg.jobs.length ⟨.pending, 0⟩, avail := cfg.cap }

/-- Total demand of currently running jobs on resource `r`. -/
def runningDemand (cfg : SConfig) (recs : List JRec) (r : Nat) : Nat :=
  ∑ j ∈ Finset.range recs.length,
    if (getRec recs j).state = .running then (jobAt cfg j).demand r else 0

/-- The resource accounting invariant: for every resource, the demand of
running jobs plus the available capacity equals the declared total. -/
def ResourceInv (cfg : SConfig) (s : SState) : Prop :=
  ∀ r < cfg.nRes, runningDemand cfg s.recs r + s.avail r = cfg.cap r

/-- Termination measure of one job record. -/
def jmeasure (cfg : SConfig) (r : JRec) : Nat :=
  match r.state with
  | .pending => 2 * (cfg.maxAttempts - r.attempts)
  | .running => 2 * (cfg.maxAttempts - r.attempts) - 1
  | _ => 0

/-- Termination measure of a scheduler state: strictly decreases at each
completion signal. -/
def smeasure (cfg : SConfig) (s : SState) : Nat :=
  ∑ j ∈ Finset.range s.recs.length, jmeasure cfg (getRec s.recs j)

/-- The atomic actions of the scheduler, as a transition relation: the
instants of a run are the states between consecutive atomic actions. -/
inductive SStep (cfg : SConfig) : SState → SState → Prop where
  | skip (s : SState) (i : Nat) :
      SStep cfg s { s with recs := skipOne cfg s.recs i }
  | dispatch (s : SState) (i : Nat) : SStep cfg s (dispatchOne cfg s i)
  | complete (s : SState) (i : Nat)
      (h : (getRec s.recs i).state = .running) :
      SStep cfg s (completeJob cfg s i)

/-- Reachability by atomic scheduler actions. -/
def SReach (cfg : SConfig) (s0 s : SState) : Prop :=
  Relation.ReflTransGen (SStep cfg) s0 s

/-- `Reaches cfg a b`: job `b` transitively depends on job `a`. -/
inductive Reaches (cfg : SConfig) : Nat → Nat → Prop where
  | step {d j : Nat} : d ∈ (jobAt cfg j).deps → Reaches cfg d j
  | trans {a b c : Nat} :
      Reaches cfg a b → Reaches cfg b c → Reaches cfg a c

/-- The scheduler's run invariant: resource accounting plus the lifecycle
bookkeeping facts the loop maintains: record count matches the job count;
pending and running jobs have attempts left; a job that is running, has
run, or is completed had all predecessors completed; a completed job's
last run succeeded; a permanently failed job's last run failed with
retries exhausted; a skipped job never ran and has a permanently failed
or skipped predecessor. -/
structure SGood (cfg : SConfig) (s : SState) : Prop where
  inv : ResourceInv cfg s
  len : s.recs.length = cfg.jobs.length
  pendA : ∀ i, (getRec s.recs i).state = .pending →
    (getRec s.recs i).attempts < cfg.maxAttempts
  runA : ∀ i, (getRec s.recs i).state = .running →
    (getRec s.recs i).attempts < cfg.maxAttempts
  depsComp : ∀ i, ((getRec s.recs i).state = .running ∨
      (getRec s.recs i).state = .completed ∨
      0 < (getRec s.recs i).attempts) →
    ∀ d ∈ (jobAt cfg i).deps, (getRec s.recs d).state = .completed
  compOut : ∀ i, (getRec s.recs i).state = .completed →
    cfg.outcome i ((getRec s.recs i).attempts - 1) = true
  failOut : ∀ i, (getRec s.recs i).state = .failedPerm →
    cfg.outcome i ((getRec s.recs i).attempts - 1) = false ∧
    (getRec s.recs i).attempts = cfg.maxAttempts
  skipDep : ∀ i < s.recs.length, (getRec s.recs i).state = .skipped →
    (getRec s.recs i).attempts = 0 ∧
    ∃ d ∈ (jobAt cfg i).deps,
      (getRec s.recs d).state = .failedPerm ∨
      (getRec s.recs d).state = .skipped

/-- A one-job configuration used as a concrete scheduler instance. -/
def cfg0 : SConfig :=
  { jobs := [{ deps := [], demand := fun _ => 1, priority := 0 }]
    nRes := 1, cap := fun _ => 2, maxAttempts := 1
    outcome := fun _ _ => true }

/-- A two-job configuration for the dependency-ordering witness: job 1
depends on job 0. -/
def cfg4 : SConfig :=
  { jobs := [{ deps := [], demand := fun _ => 1, priority := 0 },
      { deps := [0], demand := fun _ => 1, priority := 0 }]
    nRes := 1, cap := fun _ => 2, maxAttempts := 1
    outcome := fun _ _ => true }

/-- A mid-run state for `cfg4`: job 0 completed, job 1 pending. -/
def s4 : SState :=
  { recs := [⟨.completed, 1⟩, ⟨.pending, 0⟩], avail := fun _ => 2 }

/-- A four-job configuration with two independent branches: job 0 (the
failing one) feeds job 1; job 2 feeds job 3; one resource of capacity 2;
up to two attempts per job; every job except 0 succeeds. -/
def cfg7 : SConfig :=
  { jobs :=
      [{ deps := [], demand := fun _ => 1, priority := 0 },
        { deps := [0], demand := fun _ => 1, priority := 0 },
        { deps := [], demand := fun _ => 1, priority := 0 },
        { deps := [2], demand := fun _ => 1, priority := 0 }]
    nRes := 1, cap := fun _ => 2, maxAttempts := 2
    outcome := fun i _ => decide (i ≠ 0) }

/-! ## Theorems: api layer -/

theorem find?_first_existing (fs : String → Bool) (p : String)
    (pre post : List String) (hpre : ∀ q ∈ pre, fs q = false)
    (hp : fs p = true) : (pre ++ p :: post).find? fs = some p := by
  induction pre with
  | nil => simp [List.find?_cons, hp]
  | cons q pre ih =>
    have hq : fs q = false := hpre q (by simp)
    simpa [List.find?_cons, hq] using
      ih (fun r hr => hpre r (by simp [hr]))

theorem execute_workflow_finish_plugin {posix : Bool} {ex : String}
    {p : ExecutorPlugin} {res : ResourceSettings} {stor : StorageSettings}
    {es : ExecutionSettings} {out : ExecOutcome}
    (h : execute_workflow_finish posix ex p res stor es = .ok out) :
    out.plugin = p ∧ out.plugin_name = ex := by
  cases h; exact ⟨rfl, rfl⟩

theorem execute_workflow_local_plugin {posix : Bool} {ex : String}
    {p : ExecutorPlugin} {res : ResourceSettings} {stor : StorageSettings}
    {es : ExecutionSettings} {out : ExecOutcome}
    (h : execute_workflow_local posix ex p res stor es = .ok out) :
    out.plugin = p ∧ out.plugin_name = ex := by
  unfold execute_workflow_local at h
  split at h
  · cases h
  · exact execute_workflow_finish_plugin h

theorem execute_workflow_remote_plugin {posix : Bool} {ex : String}
    {p : ExecutorPlugin} {res : ResourceSettings} {stor : StorageSettings}
    {es : ExecutionSettings} {out : ExecOutcome}
    (h : execute_workflow_remote posix ex p res stor es = .ok out) :
    out.plugin = p ∧ out.plugin_name = ex := by
  unfold execute_workflow_remote at h
  split at h
  · cases h
  · split at h
    · cases h
    · split at h
      · cases h
      · exact execute_workflow_finish_plugin h

theorem get_plugin_eq_of_ok {r : Registry} {ex : String} {p : ExecutorPlugin}
    {out : ExecOutcome} (hg : Registry.get_plugin r ex = some p)
    (hp : out.plugin = p) : Registry.get_plugin r ex = some out.plugin := by
  rw [hp]; exact hg

theorem execute_workflow_plugin {base : Registry} {posix : Bool}
    {ex : String} {res : ResourceSettings} {stor : StorageSettings}
    {es : ExecutionSettings} {rs : RemoteExecutionSettings}
    {out : ExecOutcome}
    (h : execute_workflow base posix ex res stor es rs = .ok out) :
    Registry.get_plugin (_get_executor_plugin_registry base) ex = some out.plugin ∧
    out.plugin_name = ex := by
  unfold execute_workflow at h
  split at h
  · cases h
  · revert h
    cases hg : Registry.get_plugin (_get_executor_plugin_registry base) ex with
    | none => intro h; cases h
    | some p =>
      intro h
      simp only at h
      split at h
      · split at h
        · revert h
          cases res.cores with
          | none => intro h; cases h
          | some n =>
            intro h
            have hpl := execute_workflow_local_plugin h
            exact ⟨by rw [hpl.1], hpl.2⟩
        · have hpl := execute_workflow_local_plugin h
          exact ⟨by rw [hpl.1], hpl.2⟩
      · have hpl := execute_workflow_remote_plugin h
        exact ⟨by rw [hpl.1], hpl.2⟩

/-- Claim C2: the registry built by the core registers at least the
`local`, `dryrun` and `touch` backends, and `execute_workflow` selects
the backend to use by looking up the executor name given to it in that
registry. -/
theorem C2_registry_and_selection :
    (∀ base : Registry,
        ("local", local_executor) ∈ _get_executor_plugin_registry base ∧
        ("dryrun", dryrun_executor) ∈ _get_executor_plugin_registry base ∧
        ("touch", touch_executor) ∈ _get_executor_plugin_registry base) ∧
    (Registry.get_plugin (_get_executor_plugin_registry []) "local" = some local_executor ∧
      Registry.get_plugin (_get_executor_plugin_registry []) "dryrun" = some dryrun_executor ∧
      Registry.get_plugin (_get_executor_plugin_registry []) "touch" = some touch_executor) ∧
    (∀ (base : Registry) (posix : Bool) (ex : String) (res : ResourceSettings)
        (stor : StorageSettings) (es : ExecutionSettings)
        (rs : RemoteExecutionSettings) (out : ExecOutcome),
        execute_workflow base posix ex res stor es rs = .ok out →
        Registry.get_plugin (_get_executor_plugin_registry base) ex = some out.plugin ∧
        out.plugin_name = ex) := by
  refine ⟨?_, ?_, ?_⟩
  · intro base
    refine ⟨?_, ?_, ?_⟩ <;>
      simp [_get_executor_plugin_registry, Registry.register_plugin]
  · refine ⟨?_, ?_, ?_⟩ <;> rfl
  · intro base posix ex res stor es rs out h
    exact execute_workflow_plugin h

theorem C2_registry_and_selection_witness :
    Registry.get_plugin (_get_executor_plugin_registry [])
        "dryrun" = some
          (ExecOutcome.plugin
            { plugin_name := "dryrun", plugin := dryrun_executor
              resource_settings :=
                { cores := some 1, nodes := none, default_resources := none }
              storage_settings := { notemp := false, assume_shared_fs := true }
              execution_settings :=
                { debug := false, edit_notebook := none, use_threads := false } }) ∧
      ExecOutcome.plugin_name
          { plugin_name := "dryrun", plugin := dryrun_executor
            resource_settings :=
              { cores := some 1, nodes := none, default_resources := none }
            storage_settings := { notemp := false, assume_shared_fs := true }
            execution_settings :=
              { debug := false, edit_notebook := none, use_threads := false } } =
        "dryrun" :=
  C2_registry_and_selection.2.2 [] true "dryrun"
    { cores := none, nodes := none, default_resources := none }
    { notemp := false, assume_shared_fs := true }
    { debug := false, edit_notebook := none, use_threads := false }
    { immediate_submit := false } _ rfl

/-- Claim C8: calling `SnakemakeApi.workflow` outside a with-statement
raises `ApiError` and creates no workflow api; entering the context
manager sets the in-context flag so the call succeeds, and exiting clears
the flag and runs cleanup, so after exit the same call raises `ApiError`
again. -/
theorem C8_context_manager_discipline :
    (∀ (fs : String → Bool) (choices : List String) (st : SnakemakeApi)
        (sf : Option String), st.is_in_context = false →
        SnakemakeApi.workflow fs choices st sf = .error (.apiError inContextMsg)) ∧
    (∀ (st : SnakemakeApi), st.enter.is_in_context = true) ∧
    (∀ (fs : String → Bool) (choices : List String) (st : SnakemakeApi)
        (p : String), fs p = true →
        SnakemakeApi.workflow fs choices st.enter (some p) =
          .ok ({ st.enter with has_workflow_api := true }, { snakefile := p })) ∧
    (∀ (st : SnakemakeApi), st.exit.is_in_context = false) ∧
    (∀ (fs : String → Bool) (choices : List String) (st : SnakemakeApi)
        (sf : Option String),
        SnakemakeApi.workflow fs choices st.enter.exit sf =
          .error (.apiError inContextMsg)) := by
  refine ⟨?_, fun st => rfl, ?_, fun st => rfl, ?_⟩
  · intro fs choices st sf h
    simp [SnakemakeApi.workflow, h]
  · intro fs choices st p hp
    simp [SnakemakeApi.workflow, SnakemakeApi.enter, resolve_snakefile,
      mk_workflow_api, hp]
  · intro fs choices st sf
    simp [SnakemakeApi.workflow, SnakemakeApi.enter, SnakemakeApi.exit]

theorem C8_context_manager_discipline_witness :
    SnakemakeApi.workflow (fun _ => true) [] SnakemakeApi.init
        (some "Snakefile") = .error (.apiError inContextMsg) ∧
    SnakemakeApi.workflow (fun _ => true) [] SnakemakeApi.init.enter
        (some "Snakefile") =
      .ok ({ is_in_context := true, has_workflow_api := true },
        { snakefile := "Snakefile" }) ∧
    SnakemakeApi.workflow (fun _ => true) [] SnakemakeApi.init.enter.exit
        (some "Snakefile") = .error (.apiError inContextMsg) :=
  ⟨C8_context_manager_discipline.1 (fun _ => true) [] SnakemakeApi.init
      (some "Snakefile") rfl,
    C8_context_manager_discipline.2.2.1 (fun _ => true) [] SnakemakeApi.init
      "Snakefile" rfl,
    C8_context_manager_discipline.2.2.2.2 (fun _ => true) [] SnakemakeApi.init
      (some "Snakefile")⟩

/-- Claim C9: `execute_workflow` validates its settings: a local executor
that is neither dry-run nor touch raises `ApiError` when `cores` is
unset; a dry-run or touch executor with `cores` unset silently sets
`cores` to 1; a non-local executor raises `ApiError` when `nodes` is
unset; and `immediate_submit` without `notemp` raises `ApiError` for any
executor name, before the executor is resolved. -/
theorem C9_execute_workflow_validation :
    (∀ (base : Registry) (posix : Bool) (ex : String) (p : ExecutorPlugin)
        (res : ResourceSettings) (stor : StorageSettings)
        (es : ExecutionSettings) (rs : RemoteExecutionSettings),
        rs.immediate_submit = false →
        Registry.get_plugin (_get_executor_plugin_registry base) ex = some p →
        p.common_settings.local_exec = true →
        p.common_settings.dryrun_exec = false →
        p.common_settings.touch_exec = false →
        res.cores = none →
        execute_workflow base posix ex res stor es rs = .error (.apiError coresMsg)) ∧
    (∀ (base : Registry) (posix : Bool) (ex : String) (p : ExecutorPlugin)
        (res : ResourceSettings) (stor : StorageSettings)
        (es : ExecutionSettings) (rs : RemoteExecutionSettings),
        rs.immediate_submit = false →
        Registry.get_plugin (_get_executor_plugin_registry base) ex = some p →
        p.common_settings.local_exec = true →
        (p.common_settings.dryrun_exec = true ∨ p.common_settings.touch_exec = true) →
        res.cores = none →
        ∃ out, execute_workflow base posix ex res stor es rs = .ok out ∧
          out.resource_settings.cores = some 1) ∧
    (∀ (base : Registry) (posix : Bool) (ex : String) (p : ExecutorPlugin)
        (res : ResourceSettings) (stor : StorageSettings)
        (es : ExecutionSettings) (rs : RemoteExecutionSettings),
        rs.immediate_submit = false →
        Registry.get_plugin (_get_executor_plugin_registry base) ex = some p →
        p.common_settings.local_exec = false →
        res.nodes = none →
        execute_workflow base posix ex res stor es rs = .error (.apiError nodesMsg)) ∧
    (∀ (base : Registry) (posix : Bool) (ex : String)
        (res : ResourceSettings) (stor : StorageSettings)
        (es : ExecutionSettings) (rs : RemoteExecutionSettings),
        rs.immediate_submit = true → stor.notemp = false →
        execute_workflow base posix ex res stor es rs =
          .error (.apiError immediateSubmitMsg)) := by
  refine ⟨?_, ?_, ?_, ?_⟩
  · intro base posix ex p res stor es rs hi hg hl hd ht hc
    simp [execute_workflow, hi, hg, hl, hd, ht, hc]
  · intro base posix ex p res stor es rs hi hg hl hdt hc
    rcases hdt with hd | ht
    · simp [execute_workflow, hi, hg, hl, hd, hc, execute_workflow_local,
        execute_workflow_finish]
    · simp [execute_workflow, hi, hg, hl, ht, hc, execute_workflow_local,
        execute_workflow_finish]
  · intro base posix ex p res stor es rs hi hg hl hn
    simp [execute_workflow, hi, hg, hl, hn, execute_workflow_remote]
  · intro base posix ex res stor es rs hi hn
    simp [execute_workflow, hi, hn]

theorem C9_execute_workflow_validation_witness :
    execute_workflow [] true "local"
        { cores := none, nodes := none, default_resources := none }
        { notemp := false, assume_shared_fs := true }
        { debug := false, edit_notebook := none, use_threads := false }
        { immediate_submit := false } = .error (.apiError coresMsg) ∧
    (∃ out, execute_workflow [] true "touch"
        { cores := none, nodes := none, default_resources := none }
        { notemp := false, assume_shared_fs := true }
        { debug := false, edit_notebook := none, use_threads := false }
        { immediate_submit := false } = .ok out ∧
      out.resource_settings.cores = some 1) ∧
    execute_workflow
        [("cluster", { common_settings :=
            { local_exec := false, dryrun_exec := false, touch_exec := false
              implies_no_shared_fs := true } })] true "cluster"
        { cores := none, nodes := none, default_resources := none }
        { notemp := false, assume_shared_fs := true }
        { debug := false, edit_notebook := none, use_threads := false }
        { immediate_submit := false } = .error (.apiError nodesMsg) ∧
    execute_workflow [] true "no-such-executor"
        { cores := none, nodes := none, default_resources := none }
        { notemp := false, assume_shared_fs := true }
        { debug := false, edit_notebook := none, use_threads := false }
        { immediate_submit := true } = .error (.apiError immediateSubmitMsg) :=
  ⟨C9_execute_workflow_validation.1 [] true "local" local_executor _ _ _ _
      rfl rfl rfl rfl rfl rfl,
    C9_execute_workflow_validation.2.1 [] true "touch" touch_executor _ _ _ _
      rfl rfl rfl (Or.inr rfl) rfl,
    C9_execute_workflow_validation.2.2.1 _ true "cluster"
      { common_settings :=
          { local_exec := false, dryrun_exec := false, touch_exec := false
            implies_no_shared_fs := true } } _ _ _ _ rfl rfl rfl rfl,
    C9_execute_workflow_validation.2.2.2 [] true "no-such-executor" _ _ _ _
      rfl rfl⟩

/-- Claim C10: `resolve_snakefile None` returns the first existing path
among the default candidates, in order, and raises `ApiError` when none
exists; an explicit path is returned unchanged without an existence
check, and a nonexistent explicit snakefile is only rejected later, with
`ApiError`, when the `WorkflowApi` is constructed. -/
theorem C10_resolve_snakefile :
    (∀ (fs : String → Bool) (p : String) (pre post : List String),
        (∀ q ∈ pre, fs q = false) → fs p = true →
        resolve_snakefile (pre ++ p :: post) fs none = .ok p) ∧
    (∀ (choices : List String) (fs : String → Bool),
        (∀ q ∈ choices, fs q = false) →
        resolve_snakefile choices fs none =
          .error (.apiError
            ("No Snakefile found, tried " ++ String.intercalate ", " choices ++ "."))) ∧
    (∀ (choices : List String) (fs : String → Bool) (p : String),
        resolve_snakefile choices fs (some p) = .ok p) ∧
    (∀ (fs : String → Bool) (p : String), fs p = false →
        mk_workflow_api fs p =
          .error (.apiError ("Snakefile \"" ++ p ++ "\" not found."))) := by
  refine ⟨?_, ?_, fun choices fs p => rfl, ?_⟩
  · intro fs p pre post hpre hp
    simp [resolve_snakefile, find?_first_existing fs p pre post hpre hp]
  · intro choices fs h
    have hf : choices.find? fs = none := by
      rw [List.find?_eq_none]
      intro x hx
      simp [h x hx]
    simp [resolve_snakefile, hf]
  · intro fs p h
    simp [mk_workflow_api, h]

theorem C10_resolve_snakefile_witness :
    resolve_snakefile ["Snakefile", "workflow/Snakefile"]
        (fun s => s == "workflow/Snakefile") none = .ok "workflow/Snakefile" ∧
    resolve_snakefile ["Snakefile", "workflow/Snakefile"] (fun _ => false) none =
      .error (.apiError "No Snakefile found, tried Snakefile, workflow/Snakefile.") ∧
    resolve_snakefile ["Snakefile"] (fun _ => false) (some "custom.smk") =
      .ok "custom.smk" ∧
    mk_workflow_api (fun _ => false) "custom.smk" =
      .error (.apiError "Snakefile \"custom.smk\" not found.") :=
  ⟨C10_resolve_snakefile.1 (fun s => s == "workflow/Snakefile")
      "workflow/Snakefile" ["Snakefile"] [] (by decide) (by decide),
    C10_resolve_snakefile.2.1 ["Snakefile", "workflow/Snakefile"]
      (fun _ => false) (by decide),
    C10_resolve_snakefile.2.2.1 ["Snakefile"] (fun _ => false) "custom.smk",
    C10_resolve_snakefile.2.2.2 (fun _ => false) "custom.smk" rfl⟩

/-! ## Theorems: pattern matcher -/

theorem lookup_cons_self {b : Binding} {n : String} {w : List Char} :
    List.lookup n ((n, w) :: b) = some w := by
  simp [List.lookup_cons]

theorem lookup_cons_of_lookup_none {b : Binding} {n k : String}
    {w v : List Char} (hn : List.lookup n b = none)
    (hk : List.lookup k b = some v) :
    List.lookup k ((n, w) :: b) = some v := by
  have hne : k ≠ n := by
    intro h
    subst h
    rw [hn] at hk
    cases hk
  have hbeq : (k == n) = false := beq_eq_false_iff_ne.mpr hne
  simp [List.lookup_cons, hbeq, hk]

theorem append_drop_of_isPrefixOf {s cs : List Char}
    (h : s.isPrefixOf cs = true) : s ++ cs.drop s.length = cs := by
  obtain ⟨t, rfl⟩ := List.isPrefixOf_iff_prefix.mp h
  rw [List.drop_left]

theorem matchFrom_roundtrip :
    ∀ (b0 : Binding) (segs : Pattern) (cs : Fpath) (b : Binding),
      matchFrom b0 segs cs = some b →
      BindingExt b0 b ∧ resolvePattern b segs = some cs := by
  refine matchFrom.induct
    (fun b0 segs cs => ∀ b, matchFrom b0 segs cs = some b →
      BindingExt b0 b ∧ resolvePattern b segs = some cs)
    (fun b0 n rest acc cs => List.lookup n b0 = none →
      ∀ b, matchWc b0 n rest acc cs = some b →
      BindingExt b0 b ∧ ∃ d e, cs = d ++ e ∧ d ≠ [] ∧
        List.lookup n b = some (acc ++ d) ∧ resolvePattern b rest = some e)
    ?_ ?_ ?_ ?_ ?_ ?_ ?_ ?_ ?_ ?_
  · intro b0 b hb
    rw [matchFrom] at hb
    cases hb
    exact ⟨fun n v h => h, rfl⟩
  · intro b0 c cs b hb
    rw [matchFrom] at hb
    cases hb
  · intro b0 s rest cs hpre ih b hb
    rw [matchFrom] at hb
    rw [if_pos hpre] at hb
    obtain ⟨hext, hres⟩ := ih b hb
    refine ⟨hext, ?_⟩
    simp [resolvePattern, hres, append_drop_of_isPrefixOf hpre]
  · intro b0 s rest cs hpre b hb
    rw [matchFrom] at hb
    rw [if_neg hpre] at hb
    cases hb
  · intro b0 n rest cs v hlk hpre ih b hb
    rw [matchFrom] at hb
    rw [hlk] at hb
    simp only at hb
    rw [if_pos hpre] at hb
    obtain ⟨hext, hres⟩ := ih b hb
    refine ⟨hext, ?_⟩
    simp [resolvePattern, hext n v hlk, hres, append_drop_of_isPrefixOf hpre]
  · intro b0 n rest cs v hlk hpre b hb
    rw [matchFrom] at hb
    rw [hlk] at hb
    simp only at hb
    rw [if_neg hpre] at hb
    cases hb
  · intro b0 n rest cs hlk ih b hb
    rw [matchFrom] at hb
    rw [hlk] at hb
    simp only at hb
    obtain ⟨hext, d, e, hcs, hd, hlkb, hres⟩ := ih hlk b hb
    refine ⟨hext, ?_⟩
    simp only [List.nil_append] at hlkb
    simp [resolvePattern, hlkb, hres, hcs]
  · intro b0 n rest acc hlk b hb
    rw [matchWc] at hb
    cases hb
  · intro b0 n rest acc c cs r hm ih1 hlk b hb
    rw [matchWc] at hb
    rw [hm] at hb
    cases hb
    obtain ⟨hext, hres⟩ := ih1 r hm
    refine ⟨?_, [c], cs, rfl, by simp, ?_, hres⟩
    · intro k v hkv
      exact hext k v (lookup_cons_of_lookup_none hlk hkv)
    · exact hext n (acc ++ [c]) lookup_cons_self
  · intro b0 n rest acc c cs hm ih1 ih2 hlk b hb
    rw [matchWc] at hb
    rw [hm] at hb
    simp only at hb
    obtain ⟨hext, d, e, hcs, hd, hlkb, hres⟩ := ih2 hlk b hb
    refine ⟨hext, c :: d, e, by simp [hcs], by simp, ?_, hres⟩
    rw [hlkb]
    simp

/-- Claim C5: whenever `Match(pattern, path)` succeeds with a wildcard
binding, substituting that binding back into the pattern regenerates a
path equal to the original (match/resolve round-trip). -/
theorem C5_match_resolve_roundtrip (pattern : Pattern) (path : Fpath)
    (b : Binding) (h : Match pattern path = some b) :
    resolvePattern b pattern = some path :=
  (matchFrom_roundtrip [] pattern path b h).2

theorem C5_match_resolve_roundtrip_witness :
    Match [Segment.lit ['o', 'u', 't', '/'], Segment.wc "x",
        Segment.lit ['.', 't', 'x', 't']]
        ['o', 'u', 't', '/', 'a', 'b', '.', 't', 'x', 't'] =
      some [("x", ['a', 'b'])] ∧
    resolvePattern [("x", ['a', 'b'])]
        [Segment.lit ['o', 'u', 't', '/'], Segment.wc "x",
          Segment.lit ['.', 't', 'x', 't']] =
      some ['o', 'u', 't', '/', 'a', 'b', '.', 't', 'x', 't'] := by
  have hm : Match [Segment.lit ['o', 'u', 't', '/'], Segment.wc "x",
      Segment.lit ['.', 't', 'x', 't']]
      ['o', 'u', 't', '/', 'a', 'b', '.', 't', 'x', 't'] =
      some [("x", ['a', 'b'])] := by
    simp [Match, matchFrom, matchWc, List.isPrefixOf, List.lookup]
  exact ⟨hm, C5_match_resolve_roundtrip _ _ _ hm⟩

/-! ## Theorems: DAG builder -/

theorem mem_of_lookup_resolved {l : List (Fpath × Option JobKey)} {a : Fpath}
    {b : Option JobKey} (h : List.lookup a l = some b) : (a, b) ∈ l := by
  induction l with
  | nil => cases h
  | cons x l ih =>
    obtain ⟨k, v⟩ := x
    rw [List.lookup_cons] at h
    cases hak : a == k with
    | true =>
      rw [hak] at h
      simp only at h
      cases h
      have hk : a = k := eq_of_beq hak
      subst hk
      exact List.mem_cons_self _ _
    | false =>
      rw [hak] at h
      simp only at h
      exact List.mem_cons_of_mem _ (ih h)

theorem mem_keys_append {jobs tail : List BJob} {k : JobKey}
    (h : k ∈ jobs.map BJob.key) : k ∈ (jobs ++ tail).map BJob.key := by
  simp only [List.map_append, List.mem_append]
  exact Or.inl h

theorem exists_index_of_mem_keys {jobs : List BJob} {k : JobKey}
    (h : k ∈ jobs.map BJob.key) :
    ∃ i, ∃ hi : i < jobs.length, jobs[i].key = k := by
  obtain ⟨j, hj, hk⟩ := List.mem_map.mp h
  obtain ⟨i, hi, hget⟩ := List.mem_iff_getElem.mp hj
  exact ⟨i, hi, by rw [hget, hk]⟩

theorem BWF_source_leaf {nRes : Nat} {cap : Nat → Nat} {st : BState}
    (hwf : BWF nRes cap st) (path : Fpath) :
    BWF nRes cap { st with resolved := (path, none) :: st.resolved } := by
  refine ⟨hwf.nodupKeys, ?_, hwf.depsBefore, hwf.demandOk⟩
  intro p k hm
  rcases List.mem_cons.mp hm with h1 | h2
  · simp at h1
  · exact hwf.resolvedKeys p k h2

theorem BWF_memo_key {nRes : Nat} {cap : Nat → Nat} {st : BState}
    (hwf : BWF nRes cap st) (path : Fpath) {key : JobKey}
    (hkey : key ∈ st.jobs.map BJob.key) :
    BWF nRes cap { st with resolved := (path, some key) :: st.resolved } := by
  refine ⟨hwf.nodupKeys, ?_, hwf.depsBefore, hwf.demandOk⟩
  intro p k hm
  rcases List.mem_cons.mp hm with h1 | h2
  · have h2 : some k = some key := congrArg Prod.snd h1
    injection h2 with h3
    subst h3
    exact hkey
  · exact hwf.resolvedKeys p k h2

theorem BWF_append_job {nRes : Nat} {cap : Nat → Nat} {st : BState}
    (hwf : BWF nRes cap st) (path : Fpath) {key : JobKey}
    (hnot : key ∉ st.jobs.map BJob.key)
    {ins outs : List Fpath} {dem : Nat → Nat} {deps : List JobKey}
    (hdeps : ∀ k ∈ deps, k ∈ st.jobs.map BJob.key)
    (hdem : ∀ i < nRes, dem i ≤ cap i) :
    BWF nRes cap { st with
      resolved := (path, some key) :: st.resolved
      jobs := st.jobs ++ [{ key := key, inputs := ins, outputs := outs
                            demand := dem, deps := deps }] } := by
  refine ⟨?_, ?_, ?_, ?_⟩
  · rw [List.map_append, List.nodup_append]
    refine ⟨hwf.nodupKeys, List.nodup_singleton _, ?_⟩
    intro a ha hb
    simp only [List.map_cons, List.map_nil, List.mem_singleton] at hb
    subst hb
    exact hnot ha
  · intro p k hm
    rcases List.mem_cons.mp hm with h1 | h2
    · have h2 : some k = some key := congrArg Prod.snd h1
      injection h2 with h3
      subst h3
      simp
    · exact mem_keys_append (hwf.resolvedKeys p k h2)
  · intro j hj k hk
    simp only [List.length_append, List.length_cons, List.length_nil] at hj
    rcases Nat.lt_or_ge j st.jobs.length with hjl | hjr
    · rw [List.getElem_append_left hjl] at hk
      obtain ⟨i, hi, hij, hkey⟩ := hwf.depsBefore j hjl k hk
      refine ⟨i, by simp only [List.length_append]; omega, hij, ?_⟩
      rw [List.getElem_append_left hi]
      exact hkey
    · have hje : j = st.jobs.length := by omega
      subst hje
      simp only [List.getElem_concat_length] at hk
      have hkk := hdeps k hk
      obtain ⟨i, hi, hkey⟩ := exists_index_of_mem_keys hkk
      refine ⟨i, by simp only [List.length_append]; omega, hi, ?_⟩
      rw [List.getElem_append_left hi]
      exact hkey
  · intro j hmem i hi
    rcases List.mem_append.mp hmem with h1 | h2
    · exact hwf.demandOk j h1 i hi
    · rw [List.mem_singleton] at h2
      subst h2
      exact hdem i hi

theorem resolvePath_preserves (rules : List Rule) (fs : Fpath → Bool)
    (nRes : Nat) (cap : Nat → Nat) :
    ∀ (fuel : Nat) (stack : List Fpath) (st : BState) (path : Fpath),
      ∀ st' prod,
        resolvePath rules fs nRes cap fuel stack st path = .ok (st', prod) →
        BWF nRes cap st →
        BWF nRes cap st' ∧ (∃ tail, st'.jobs = st.jobs ++ tail) ∧
          ∀ k, prod = some k → k ∈ st'.jobs.map BJob.key := by
  refine resolvePath.induct rules fs nRes cap
    (fun fuel stack st path => ∀ st' prod,
      resolvePath rules fs nRes cap fuel stack st path = .ok (st', prod) →
      BWF nRes cap st →
      BWF nRes cap st' ∧ (∃ tail, st'.jobs = st.jobs ++ tail) ∧
        ∀ k, prod = some k → k ∈ st'.jobs.map BJob.key)
    (fun fuel stack st paths => ∀ st' prods,
      resolveList rules fs nRes cap fuel stack st paths = .ok (st', prods) →
      BWF nRes cap st →
      BWF nRes cap st' ∧ (∃ tail, st'.jobs = st.jobs ++ tail) ∧
        ∀ k ∈ prods.filterMap id, k ∈ st'.jobs.map BJob.key)
    ?_ ?_ ?_ ?_ ?_ ?_ ?_ ?_ ?_ ?_ ?_ ?_ ?_ ?_ ?_ ?_
  · intro stack st path st' prod h
    simp [resolvePath] at h
  · intro fuel stack st path hmem st' prod h
    simp [resolvePath, hmem] at h
  · intro fuel stack st path hmem prod0 hlk st' prod h hwf
    simp only [resolvePath, hmem, if_false, hlk, Except.ok.injEq,
      Prod.mk.injEq] at h
    obtain ⟨hst, hprod⟩ := h
    subst hst
    subst hprod
    refine ⟨hwf, ⟨[], by simp⟩, ?_⟩
    intro k hk
    subst hk
    exact hwf.resolvedKeys path k (mem_of_lookup_resolved hlk)
  · intro fuel stack st path hmem hlk hrm hfs st' prod h hwf
    simp only [resolvePath, hmem, if_false, hlk, hrm, hfs, if_true,
      Except.ok.injEq, Prod.mk.injEq] at h
    obtain ⟨hst, hprod⟩ := h
    subst hst
    subst hprod
    exact ⟨BWF_source_leaf hwf path, ⟨[], by simp⟩, fun k hk => by cases hk⟩
  · intro fuel stack st path hmem hlk hrm hfs st' prod h
    simp [resolvePath, hmem, hlk, hrm, hfs] at h
  · intro fuel stack st path hmem hlk r b hrm hkey st' prod h hwf
    simp only [resolvePath, hmem, if_false, hlk, hrm, hkey, if_true,
      Except.ok.injEq, Prod.mk.injEq] at h
    obtain ⟨hst, hprod⟩ := h
    subst hst
    subst hprod
    exact ⟨BWF_memo_key hwf path hkey, ⟨[], by simp⟩,
      fun k hk => by injection hk with hk2; subst hk2; exact hkey⟩
  · intro fuel stack st path hmem hlk r b hrm hkey ins outs ho hi hdem e hrl ih
    intro st' prod h
    simp only [resolvePath, hmem, if_false, hlk, hrm, hkey, hi, ho, hrl] at h
    rw [if_pos hdem] at h
    cases h
  · intro fuel stack st path hmem hlk r b hrm hkey ins outs ho hi hdem st1
      prods hrl hkey2 ih st' prod h hwf
    simp only [resolvePath, hmem, if_false, hlk, hrm, hkey, hi, ho, hrl] at h
    rw [if_pos hdem] at h
    simp only [hkey2, if_true, if_false, Except.ok.injEq, Prod.mk.injEq] at h
    obtain ⟨hst, hprod⟩ := h
    subst hst
    subst hprod
    obtain ⟨hwf1, hext1, _⟩ := ih st1 prods hrl hwf
    refine ⟨BWF_memo_key hwf1 path hkey2, hext1, ?_⟩
    intro k hk
    injection hk with hk2
    subst hk2
    exact hkey2
  · intro fuel stack st path hmem hlk r b hrm hkey ins outs ho hi hdem st1
      prods hrl hkey2 ih st' prod h hwf
    simp only [resolvePath, hmem, if_false, hlk, hrm, hkey, hi, ho, hrl] at h
    rw [if_pos hdem] at h
    simp only [hkey2, if_true, if_false, Except.ok.injEq, Prod.mk.injEq] at h
    obtain ⟨hst, hprod⟩ := h
    subst hst
    subst hprod
    obtain ⟨hwf1, hext1, hprods⟩ := ih st1 prods hrl hwf
    obtain ⟨t1, ht1⟩ := hext1
    have hdeps : ∀ k ∈ prods.filterMap id, k ∈ st1.jobs.map BJob.key := hprods
    refine ⟨BWF_append_job hwf1 path hkey2 hdeps hdem, ?_, ?_⟩
    · exact ⟨t1 ++ [BJob.mk (r.name, b) ins outs (r.demand b)
          (List.filterMap id prods)], by simp [ht1]⟩
    · intro k hk
      injection hk with hk2
      subst hk2
      simp
  · intro fuel stack st path hmem hlk r b hrm hkey ins outs ho hi hdem st'
      prod h
    simp [resolvePath, hmem, hlk, hrm, hkey, hi, ho, hdem] at h
  · intro fuel stack st path hmem hlk r b hrm hkey hro st' prod h
    rw [resolvePath] at h
    simp only [hmem, if_false, hlk, hrm, hkey] at h
    revert h
    cases hia : resolveAll b r.inputs with
    | none => intro h; simp at h
    | some ins =>
      cases hoa : resolveAll b r.outputs with
      | none => intro h; simp at h
      | some outs => exact absurd hoa (by intro hc; exact hro ins outs hia hc)
  · intro fuel stack st path hmem hlk h0 h1 st' prod h
    rw [resolvePath] at h
    simp only [hmem, if_false, hlk] at h
    revert h
    cases hrm : ruleMatches rules path with
    | nil => exact absurd hrm h0
    | cons x xs =>
      cases xs with
      | nil =>
        obtain ⟨r, b⟩ := x
        exact absurd hrm (h1 r b)
      | cons y ys => intro h; simp at h
  · intro fuel stack st st' prods h hwf
    simp only [resolveList, Except.ok.injEq, Prod.mk.injEq] at h
    obtain ⟨hst, hprods⟩ := h
    subst hst
    subst hprods
    exact ⟨hwf, ⟨[], by simp⟩, fun k hk => by simp at hk⟩
  · intro fuel stack st p ps e hre ih st' prods h
    simp [resolveList, hre] at h
  · intro fuel stack st p ps st1 prod hre e hrl ih1 ih2 st' prods h
    simp [resolveList, hre, hrl] at h
  · intro fuel stack st p ps st1 prod hre st2 prods2 hrl ih1 ih2 st' prods
      h hwf
    simp only [resolveList, hre, hrl, Except.ok.injEq, Prod.mk.injEq] at h
    obtain ⟨hst, hprods⟩ := h
    subst hst
    subst hprods
    obtain ⟨hwf1, hext1, hk1⟩ := ih1 st1 prod hre hwf
    obtain ⟨hwf2, hext2, hk2⟩ := ih2 st2 prods2 hrl hwf1
    obtain ⟨t1, ht1⟩ := hext1
    obtain ⟨t2, ht2⟩ := hext2
    refine ⟨hwf2, ⟨t1 ++ t2, by rw [ht2, ht1, List.append_assoc]⟩, ?_⟩
    intro k hk
    cases prod with
    | none =>
      simp only [List.filterMap_cons, id] at hk
      exact hk2 k hk
    | some a =>
      simp only [List.filterMap_cons, id] at hk
      rcases List.mem_cons.mp hk with h1 | h2
      · subst h1
        rw [ht2]
        exact mem_keys_append (hk1 _ rfl)
      · exact hk2 k h2

theorem resolveList_preserves (rules : List Rule) (fs : Fpath → Bool)
    (nRes : Nat) (cap : Nat → Nat) :
    ∀ (paths : List Fpath) (fuel : Nat) (stack : List Fpath)
      (st st' : BState) (prods : List (Option JobKey)),
      resolveList rules fs nRes cap fuel stack st paths = .ok (st', prods) →
      BWF nRes cap st → BWF nRes cap st' := by
  intro paths
  induction paths with
  | nil =>
    intro fuel stack st st' prods h hwf
    simp only [resolveList, Except.ok.injEq, Prod.mk.injEq] at h
    obtain ⟨h1, _⟩ := h
    subst h1
    exact hwf
  | cons p ps ih =>
    intro fuel stack st st' prods h hwf
    simp only [resolveList] at h
    revert h
    cases hre : resolvePath rules fs nRes cap fuel stack st p with
    | error e => intro h; simp at h
    | ok pr =>
      obtain ⟨st1, prod⟩ := pr
      cases hrl : resolveList rules fs nRes cap fuel stack st1 ps with
      | error e => intro h; simp [hrl] at h
      | ok pr2 =>
        obtain ⟨st2, prods2⟩ := pr2
        intro h
        simp only [hrl, Except.ok.injEq, Prod.mk.injEq] at h
        obtain ⟨h1, _⟩ := h
        subst h1
        have hwf1 :=
          (resolvePath_preserves rules fs nRes cap fuel stack st p st1 prod
            hre hwf).1
        exact ih fuel stack st1 st2 prods2 hrl hwf1

theorem BWF_init (nRes : Nat) (cap : Nat → Nat) :
    BWF nRes cap ⟨[], []⟩ := by
  refine ⟨by simp, ?_, ?_, ?_⟩
  · intro p k hm
    simp at hm
  · intro j hj
    simp at hj
  · intro j hj
    simp at hj

theorem BuildGraph_wf {rules : List Rule} {fs : Fpath → Bool} {nRes : Nat}
    {cap : Nat → Nat} {fuel : Nat} {targets : List Fpath} {st : BState}
    (h : BuildGraph rules fs nRes cap fuel targets = .ok st) :
    BWF nRes cap st := by
  unfold BuildGraph at h
  revert h
  cases hrl : resolveList rules fs nRes cap fuel [] ⟨[], []⟩ targets with
  | error e => intro h; cases h
  | ok pr =>
    obtain ⟨st0, prods⟩ := pr
    intro h
    simp only [Except.ok.injEq] at h
    subst h
    exact resolveList_preserves rules fs nRes cap targets fuel [] ⟨[], []⟩
      st0 prods hrl (BWF_init nRes cap)

theorem JobEdge_lt {nRes : Nat} {cap : Nat → Nat} {st : BState}
    (hwf : BWF nRes cap st) {i j : Nat} (he : JobEdge st.jobs i j) :
    i < j := by
  obtain ⟨hi, hj, hmem⟩ := he
  obtain ⟨i2, hi2, hlt, hkey⟩ := hwf.depsBefore j hj _ hmem
  have hmaplen : (st.jobs.map BJob.key).length = st.jobs.length :=
    List.length_map _ _
  have h1 : (st.jobs.map BJob.key).get ⟨i2, by omega⟩ =
      (st.jobs.map BJob.key).get ⟨i, by omega⟩ := by
    simp only [List.get_eq_getElem, List.getElem_map]
    rw [hkey]
  have h2 : i2 = i := by
    have hfin := (List.Nodup.get_inj_iff hwf.nodupKeys).mp h1
    exact congrArg Fin.val hfin
  omega

theorem chain_forall_lt {E : Nat → Nat → Prop}
    (hE : ∀ i j, E i j → i < j) :
    ∀ (l : List Nat) (v : Nat), List.Chain E v l → ∀ x ∈ l, v < x := by
  intro l
  induction l with
  | nil =>
    intro v _ x hx
    cases hx
  | cons a l ih =>
    intro v h x hx
    rw [List.chain_cons] at h
    rcases List.mem_cons.mp hx with h1 | h2
    · subst h1
      exact hE _ _ h.1
    · exact Nat.lt_trans (hE _ _ h.1) (ih a h.2 x h2)

theorem no_cycle_of_edge_lt {E : Nat → Nat → Prop}
    (hE : ∀ i j, E i j → i < j) : ¬ HasCycle E := by
  rintro ⟨v, l, hch⟩
  exact Nat.lt_irrefl v (chain_forall_lt hE (l ++ [v]) v hch v (by simp))

/-- Claim C1: for every finite rule set and target set, `BuildGraph`
either fails or returns a job graph that contains no cycle; in
particular, a rule set with a genuine circular dependency (rule A's
output matches rule B's input pattern and vice versa) makes `BuildGraph`
fail with `CyclicDependency`, at any recursion budget large enough to
reach the cycle, rather than hang or overflow the stack. -/
theorem C1_buildgraph_no_cycle :
    (∀ (rules : List Rule) (fs : Fpath → Bool) (nRes : Nat)
        (cap : Nat → Nat) (fuel : Nat) (targets : List Fpath) (st : BState),
        BuildGraph rules fs nRes cap fuel targets = .ok st →
        ¬ HasCycle (JobEdge st.jobs)) ∧
    (∀ f : Nat, BuildGraph [ruleA, ruleB] (fun _ => false) 0 (fun _ => 0)
        (f + 3) [['a', '.', 'o']] =
      .error (.CyclicDependency
        [['a', '.', 'o'], ['b', '.', 'o'], ['a', '.', 'o']])) := by
  constructor
  · intro rules fs nRes cap fuel targets st h
    exact no_cycle_of_edge_lt fun i j he => JobEdge_lt (BuildGraph_wf h) he
  · intro f
    simp +decide [BuildGraph, resolveList, resolvePath, ruleMatches,
      firstMatch, Match, matchFrom, resolveAll, resolvePattern, ruleA,
      ruleB, List.lookup]

theorem C1_buildgraph_no_cycle_witness :
    ¬ HasCycle (JobEdge (BState.mk [] []).jobs) ∧
    BuildGraph [ruleA, ruleB] (fun _ => false) 0 (fun _ => 0) 3
        [['a', '.', 'o']] =
      .error (.CyclicDependency
        [['a', '.', 'o'], ['b', '.', 'o'], ['a', '.', 'o']]) :=
  ⟨C1_buildgraph_no_cycle.1 [] (fun _ => false) 0 (fun _ => 0) 0 []
      ⟨[], []⟩ (by simp [BuildGraph, resolveList]),
    C1_buildgraph_no_cycle.2 0⟩

/-- Claim C6: jobs are deduplicated by their (rule identity, wildcard
binding) pair: in every graph `BuildGraph` returns, job keys are unique,
and two requested targets that resolve to the same pair (here the two
outputs of one rule) yield exactly one job. -/
theorem C6_job_dedup :
    (∀ (rules : List Rule) (fs : Fpath → Bool) (nRes : Nat)
        (cap : Nat → Nat) (fuel : Nat) (targets : List Fpath) (st : BState),
        BuildGraph rules fs nRes cap fuel targets = .ok st →
        (st.jobs.map BJob.key).Nodup) ∧
    (BuildGraph [ruleC] (fun _ => false) 0 (fun _ => 0) 3
        [['p', '.', 'o'], ['q', '.', 'o']]).map (fun st => st.jobs.length) =
      .ok 1 := by
  constructor
  · intro rules fs nRes cap fuel targets st h
    exact (BuildGraph_wf h).nodupKeys
  · simp +decide [BuildGraph, resolveList, resolvePath, ruleMatches,
      firstMatch, Match, matchFrom, resolveAll, resolvePattern, ruleC,
      List.lookup, Except.map]

theorem C6_job_dedup_witness :
    ((BState.mk [] []).jobs.map BJob.key).Nodup :=
  C6_job_dedup.1 [] (fun _ => false) 0 (fun _ => 0) 0 [] ⟨[], []⟩
    (by simp [BuildGraph, resolveList])

/-! ## Theorems: scheduler -/

theorem getRec_set_self {recs : List JRec} {i : Nat} {v : JRec}
    (h : i < recs.length) : getRec (recs.set i v) i = v := by
  simp [getRec, List.getElem?_set_self h]

theorem getRec_set_ne {recs : List JRec} {i j : Nat} {v : JRec}
    (h : i ≠ j) : getRec (recs.set i v) j = getRec recs j := by
  simp [getRec, List.getElem?_set_ne h]

theorem getRec_out_of_range {recs : List JRec} {i : Nat}
    (h : recs.length ≤ i) : getRec recs i = ⟨.skipped, 0⟩ := by
  simp [getRec, List.getElem?_eq_none h]

theorem lt_length_of_state_pending {recs : List JRec} {i : Nat}
    (h : (getRec recs i).state = .pending) : i < recs.length := by
  by_contra hcon
  rw [getRec_out_of_range (Nat.le_of_not_lt hcon)] at h
  cases h

theorem lt_length_of_state_running {recs : List JRec} {i : Nat}
    (h : (getRec recs i).state = .running) : i < recs.length := by
  by_contra hcon
  rw [getRec_out_of_range (Nat.le_of_not_lt hcon)] at h
  cases h

theorem sum_getRec_set (g : Nat → JRec → Nat) {recs : List JRec}
    {i : Nat} {v : JRec} (h : i < recs.length) :
    (∑ j ∈ Finset.range (recs.set i v).length,
        g j (getRec (recs.set i v) j)) + g i (getRec recs i)
      = (∑ j ∈ Finset.range recs.length, g j (getRec recs j)) + g i v := by
  rw [List.length_set]
  have hmem : i ∈ Finset.range recs.length := Finset.mem_range.mpr h
  rw [← Finset.sum_erase_add _ _ hmem,
    ← Finset.sum_erase_add _ (fun j => g j (getRec recs j)) hmem]
  have h1 : ∀ j ∈ (Finset.range recs.length).erase i,
      g j (getRec (recs.set i v) j) = g j (getRec recs j) := by
    intro j hj
    rw [getRec_set_ne (Ne.symm (Finset.mem_erase.mp hj).1)]
  rw [Finset.sum_congr rfl h1, getRec_set_self h]
  omega

theorem runningDemand_set (cfg : SConfig) {recs : List JRec} {i : Nat}
    {v : JRec} (h : i < recs.length) (r : Nat) :
    runningDemand cfg (recs.set i v) r +
        (if (getRec recs i).state = .running then (jobAt cfg i).demand r
          else 0)
      = runningDemand cfg recs r +
        (if v.state = .running then (jobAt cfg i).demand r else 0) := by
  unfold runningDemand
  exact sum_getRec_set
    (fun j rec => if rec.state = .running then (jobAt cfg j).demand r else 0)
    h

theorem ResourceInv_skipOne {cfg : SConfig} {s : SState} (i : Nat)
    (hinv : ResourceInv cfg s) :
    ResourceInv cfg { s with recs := skipOne cfg s.recs i } := by
  unfold skipOne
  split
  case isTrue hcond =>
    intro r hr
    have hi : i < s.recs.length := lt_length_of_state_pending hcond.1
    have hsum := runningDemand_set cfg
      (v := ⟨.skipped, (getRec s.recs i).attempts⟩) hi r
    rw [hcond.1] at hsum
    simp only [reduceCtorEq, if_false] at hsum
    have := hinv r hr
    simp only at *
    omega
  case isFalse => exact hinv

theorem ResourceInv_dispatchOne {cfg : SConfig} {s : SState} (i : Nat)
    (hinv : ResourceInv cfg s) :
    ResourceInv cfg (dispatchOne cfg s i) := by
  unfold dispatchOne
  split
  case isTrue hcond =>
    obtain ⟨hready, hfits⟩ := hcond
    intro r hr
    have hi : i < s.recs.length := lt_length_of_state_pending hready.1
    have hsum := runningDemand_set cfg
      (v := ⟨.running, (getRec s.recs i).attempts⟩) hi r
    rw [hready.1] at hsum
    simp only [reduceCtorEq, if_false, if_true] at hsum
    have hin := hinv r hr
    have hle := hfits r hr
    simp only at *
    omega
  case isFalse => exact hinv

theorem ResourceInv_completeJob {cfg : SConfig} {s : SState} (i : Nat)
    (hrun : (getRec s.recs i).state = .running)
    (hinv : ResourceInv cfg s) :
    ResourceInv cfg (completeJob cfg s i) := by
  have hi : i < s.recs.length := lt_length_of_state_running hrun
  unfold completeJob
  split
  · intro r hr
    have hsum := runningDemand_set cfg
      (v := ⟨.completed, (getRec s.recs i).attempts + 1⟩) hi r
    rw [hrun] at hsum
    simp only [reduceCtorEq, if_false, if_true] at hsum
    have hin := hinv r hr
    simp only at *
    omega
  · split
    · intro r hr
      have hsum := runningDemand_set cfg
        (v := ⟨.pending, (getRec s.recs i).attempts + 1⟩) hi r
      rw [hrun] at hsum
      simp only [reduceCtorEq, if_false, if_true] at hsum
      have hin := hinv r hr
      simp only at *
      omega
    · intro r hr
      have hsum := runningDemand_set cfg
        (v := ⟨.failedPerm, (getRec s.recs i).attempts + 1⟩) hi r
      rw [hrun] at hsum
      simp only [reduceCtorEq, if_false, if_true] at hsum
      have hin := hinv r hr
      simp only at *
      omega

theorem ResourceInv_step {cfg : SConfig} {s s' : SState}
    (h : SStep cfg s s') (hinv : ResourceInv cfg s) :
    ResourceInv cfg s' := by
  cases h with
  | skip i => exact ResourceInv_skipOne i hinv
  | dispatch i => exact ResourceInv_dispatchOne i hinv
  | complete i hrun => exact ResourceInv_completeJob i hrun hinv

theorem ResourceInv_reach {cfg : SConfig} {s s' : SState}
    (h : SReach cfg s s') (hinv : ResourceInv cfg s) :
    ResourceInv cfg s' := by
  induction h with
  | refl => exact hinv
  | tail hab hbc ih => exact ResourceInv_step hbc ih

theorem getRec_initState (cfg : SConfig) {i : Nat}
    (h : i < cfg.jobs.length) :
    getRec (initState cfg).recs i = ⟨.pending, 0⟩ := by
  simp [initState, getRec, List.getElem?_replicate, h]

theorem ResourceInv_init (cfg : SConfig) :
    ResourceInv cfg (initState cfg) := by
  intro r hr
  have h0 : runningDemand cfg (initState cfg).recs r = 0 := by
    unfold runningDemand
    refine Finset.sum_eq_zero ?_
    intro j hj
    rw [Finset.mem_range] at hj
    simp only [initState, List.length_replicate] at hj
    rw [getRec_initState cfg hj]
    simp
  rw [h0]
  simp [initState]

theorem SReach_foldl_dispatch (cfg : SConfig) :
    ∀ (l : List Nat) (s : SState),
      SReach cfg s (l.foldl (dispatchOne cfg) s) := by
  intro l
  induction l with
  | nil => intro s; exact Relation.ReflTransGen.refl
  | cons i l ih =>
    intro s
    exact Relation.ReflTransGen.head (SStep.dispatch s i)
      (ih (dispatchOne cfg s i))

theorem SReach_foldl_skip (cfg : SConfig) :
    ∀ (l : List Nat) (s : SState),
      SReach cfg s { s with recs := l.foldl (skipOne cfg) s.recs } := by
  intro l
  induction l with
  | nil => intro s; exact Relation.ReflTransGen.refl
  | cons i l ih =>
    intro s
    exact Relation.ReflTransGen.head (SStep.skip s i)
      (ih { s with recs := skipOne cfg s.recs i })

theorem firstRunning_running {recs : List JRec} {i : Nat}
    (h : firstRunning recs = some i) :
    (getRec recs i).state = .running := by
  have := List.find?_some h
  simpa using this

theorem SReach_runLoop (cfg : SConfig) :
    ∀ (fuel : Nat) (s : SState), SReach cfg s (runLoop cfg fuel s) := by
  intro fuel
  induction fuel with
  | zero => intro s; exact Relation.ReflTransGen.refl
  | succ fuel ih =>
    intro s
    rw [runLoop]
    have h1 : SReach cfg s (skipMarkState cfg s) :=
      SReach_foldl_skip cfg (List.range s.recs.length) s
    have h2 : SReach cfg (skipMarkState cfg s)
        (dispatchPhase cfg (skipMarkState cfg s)) :=
      SReach_foldl_dispatch cfg _ _
    have h12 := Relation.ReflTransGen.trans h1 h2
    cases hfr : firstRunning (dispatchPhase cfg (skipMarkState cfg s)).recs with
    | none => exact h12
    | some i =>
      refine Relation.ReflTransGen.trans h12 ?_
      exact Relation.ReflTransGen.head
        (SStep.complete _ i (firstRunning_running hfr)) (ih _)

/-- Claim C3: at every instant during a run (every state reachable by the
scheduler's atomic actions from the initial state, which covers every
state of the loop `runLoop`), the total demand of running jobs on each
resource is at most the declared capacity; and jobs whose demand exceeds
total capacity are rejected at graph-build time: a graph returned by
`BuildGraph` only contains jobs within capacity. -/
theorem C3_resource_invariant :
    (∀ (cfg : SConfig) (s : SState), SReach cfg (initState cfg) s →
        ∀ r < cfg.nRes, runningDemand cfg s.recs r ≤ cfg.cap r) ∧
    (∀ (cfg : SConfig) (fuel : Nat) (s : SState),
        SReach cfg s (runLoop cfg fuel s)) ∧
    (∀ (rules : List Rule) (fs : Fpath → Bool) (nRes : Nat)
        (cap : Nat → Nat) (fuel : Nat) (targets : List Fpath) (st : BState),
        BuildGraph rules fs nRes cap fuel targets = .ok st →
        ∀ j ∈ st.jobs, ∀ r < nRes, j.demand r ≤ cap r) := by
  refine ⟨?_, SReach_runLoop, ?_⟩
  · intro cfg s hre r hr
    have := ResourceInv_reach hre (ResourceInv_init cfg) r hr
    omega
  · intro rules fs nRes cap fuel targets st h
    exact (BuildGraph_wf h).demandOk

theorem C3_resource_invariant_witness :
    runningDemand cfg0 (initState cfg0).recs 0 ≤ cfg0.cap 0 ∧
    SReach cfg0 (initState cfg0) (runLoop cfg0 0 (initState cfg0)) ∧
    ∀ j ∈ (BState.mk [] []).jobs, ∀ r < 0, j.demand r ≤ 0 :=
  ⟨C3_resource_invariant.1 cfg0 (initState cfg0)
      Relation.ReflTransGen.refl 0 (by decide),
    C3_resource_invariant.2.1 cfg0 0 (initState cfg0),
    C3_resource_invariant.2.2 [] (fun _ => false) 0 (fun _ => 0) 0 []
      ⟨[], []⟩ (by simp [BuildGraph, resolveList])⟩

/-- Claim C4: a successor is never dispatched before all of its
predecessors have completed: in any atomic scheduler action that makes a
job `running`, every predecessor of that job is `completed` at that
moment. -/
theorem C4_dependency_ordering :
    ∀ (cfg : SConfig) (s s' : SState), SStep cfg s s' →
      ∀ i : Nat, (getRec s.recs i).state ≠ .running →
        (getRec s'.recs i).state = .running →
        ∀ d ∈ (jobAt cfg i).deps, (getRec s.recs d).state = .completed := by
  intro cfg s s' hstep i hold hnew d hd
  cases hstep with
  | skip j =>
    unfold skipOne at hnew
    split at hnew
    case isTrue hcond =>
      by_cases hij : j = i
      · subst hij
        rw [getRec_set_self (lt_length_of_state_pending hcond.1)] at hnew
        cases hnew
      · rw [getRec_set_ne hij] at hnew
        exact absurd hnew hold
    case isFalse => exact absurd hnew hold
  | dispatch j =>
    unfold dispatchOne at hnew
    split at hnew
    case isTrue hcond =>
      by_cases hij : j = i
      · subst hij
        exact hcond.1.2.1 d hd
      · rw [getRec_set_ne hij] at hnew
        exact absurd hnew hold
    case isFalse => exact absurd hnew hold
  | complete j hrun =>
    unfold completeJob at hnew
    have hj : j < s.recs.length := lt_length_of_state_running hrun
    by_cases hij : j = i
    · subst hij
      split at hnew
      · rw [getRec_set_self hj] at hnew
        cases hnew
      · split at hnew
        · rw [getRec_set_self hj] at hnew
          cases hnew
        · rw [getRec_set_self hj] at hnew
          cases hnew
    · split at hnew
      · rw [getRec_set_ne hij] at hnew
        exact absurd hnew hold
      · split at hnew
        · rw [getRec_set_ne hij] at hnew
          exact absurd hnew hold
        · rw [getRec_set_ne hij] at hnew
          exact absurd hnew hold

theorem C4_dependency_ordering_witness :
    (getRec s4.recs 0).state = .completed :=
  C4_dependency_ordering cfg4 s4 (dispatchOne cfg4 s4 1)
    (SStep.dispatch s4 1) 1 (by decide) (by decide) 0 (by decide)

theorem SGood_skipOne {cfg : SConfig} {s : SState} (i : Nat)
    (hg : SGood cfg s) :
    SGood cfg { s with recs := skipOne cfg s.recs i } := by
  have hinv := ResourceInv_skipOne i hg.inv
  by_cases hcond : (getRec s.recs i).state = .pending ∧
      ∃ d ∈ (jobAt cfg i).deps,
        (getRec s.recs d).state = .failedPerm ∨
        (getRec s.recs d).state = .skipped
  case neg =>
    unfold skipOne
    rw [if_neg hcond]
    exact hg
  case pos =>
    obtain ⟨hpend, hex⟩ := hcond
    have hi : i < s.recs.length := lt_length_of_state_pending hpend
    have hatt0 : (getRec s.recs i).attempts = 0 := by
      by_contra hc
      obtain ⟨d, hd, hbad⟩ := hex
      have := hg.depsComp i (Or.inr (Or.inr (Nat.pos_of_ne_zero hc))) d hd
      rcases hbad with hb | hb <;> rw [this] at hb <;> cases hb
    unfold skipOne at hinv ⊢
    rw [if_pos ⟨hpend, hex⟩] at hinv ⊢
    have hset : ∀ j, getRec (s.recs.set i
        ⟨.skipped, (getRec s.recs i).attempts⟩) j =
        if i = j then ⟨.skipped, (getRec s.recs i).attempts⟩
        else getRec s.recs j := by
      intro j
      by_cases hij : i = j
      · subst hij
        rw [getRec_set_self hi, if_pos rfl]
      · rw [getRec_set_ne hij, if_neg hij]
    refine ⟨hinv, by simpa using hg.len, ?_, ?_, ?_, ?_, ?_, ?_⟩
    · intro j hj
      rw [hset] at hj ⊢
      by_cases hij : i = j
      · rw [if_pos hij] at hj
        cases hj
      · rw [if_neg hij] at hj ⊢
        exact hg.pendA j hj
    · intro j hj
      rw [hset] at hj ⊢
      by_cases hij : i = j
      · rw [if_pos hij] at hj
        cases hj
      · rw [if_neg hij] at hj ⊢
        exact hg.runA j hj
    · intro j hj d hd
      rw [hset] at hj
      rw [hset]
      by_cases hij : i = j
      · rw [if_pos hij] at hj
        simp only [hatt0] at hj
        rcases hj with hj | hj | hj
        · cases hj
        · cases hj
        · exact absurd hj (by simp)
      · rw [if_neg hij] at hj
        have hdc := hg.depsComp j hj d hd
        by_cases hid : i = d
        · rw [← hid] at hdc
          rw [hpend] at hdc
          cases hdc
        · rw [if_neg hid]
          exact hdc
    · intro j hj
      rw [hset] at hj ⊢
      by_cases hij : i = j
      · rw [if_pos hij] at hj
        cases hj
      · rw [if_neg hij] at hj ⊢
        exact hg.compOut j hj
    · intro j hj
      rw [hset] at hj ⊢
      by_cases hij : i = j
      · rw [if_pos hij] at hj
        cases hj
      · rw [if_neg hij] at hj ⊢
        exact hg.failOut j hj
    · intro j hjl hj
      rw [List.length_set] at hjl
      rw [hset] at hj ⊢
      by_cases hij : i = j
      · subst hij
        rw [if_pos rfl] at hj ⊢
        obtain ⟨d, hd, hbad⟩ := hex
        refine ⟨by simpa using hatt0, d, hd, ?_⟩
        have hid : ¬ i = d := by
          intro hc
          rw [← hc] at hbad
          rcases hbad with hb | hb <;> rw [hpend] at hb <;> cases hb
        rw [hset, if_neg hid]
        exact hbad
      · rw [if_neg hij] at hj ⊢
        obtain ⟨ha, d, hd, hbad⟩ := hg.skipDep j hjl hj
        refine ⟨ha, d, hd, ?_⟩
        have hid : ¬ i = d := by
          intro hc
          rw [← hc] at hbad
          rcases hbad with hb | hb <;> rw [hpend] at hb <;> cases hb
        rw [hset, if_neg hid]
        exact hbad

theorem SGood_dispatchOne {cfg : SConfig} {s : SState} (i : Nat)
    (hg : SGood cfg s) : SGood cfg (dispatchOne cfg s i) := by
  have hinv := ResourceInv_dispatchOne i hg.inv
  by_cases hcond : isReady cfg s.recs i ∧ fits cfg s.avail i
  case neg =>
    unfold dispatchOne
    rw [if_neg hcond]
    exact hg
  case pos =>
    obtain ⟨hready, hfits⟩ := hcond
    obtain ⟨hpend, hdeps, hattlt⟩ := hready
    have hi : i < s.recs.length := lt_length_of_state_pending hpend
    unfold dispatchOne at hinv ⊢
    rw [if_pos ⟨⟨hpend, hdeps, hattlt⟩, hfits⟩] at hinv ⊢
    have hset : ∀ j, getRec (s.recs.set i
        ⟨.running, (getRec s.recs i).attempts⟩) j =
        if i = j then ⟨.running, (getRec s.recs i).attempts⟩
        else getRec s.recs j := by
      intro j
      by_cases hij : i = j
      · subst hij
        rw [getRec_set_self hi, if_pos rfl]
      · rw [getRec_set_ne hij, if_neg hij]
    refine ⟨hinv, by simpa using hg.len, ?_, ?_, ?_, ?_, ?_, ?_⟩
    · intro j hj
      rw [hset] at hj ⊢
      by_cases hij : i = j
      · rw [if_pos hij] at hj
        cases hj
      · rw [if_neg hij] at hj ⊢
        exact hg.pendA j hj
    · intro j hj
      rw [hset] at hj ⊢
      by_cases hij : i = j
      · rw [if_pos hij]
        exact hattlt
      · rw [if_neg hij] at hj ⊢
        exact hg.runA j hj
    · intro j hj d hd
      rw [hset] at hj
      rw [hset]
      by_cases hij : i = j
      · subst hij
        have hdc := hdeps d hd
        have hid : ¬ i = d := by
          intro hc
          rw [← hc] at hdc
          rw [hpend] at hdc
          cases hdc
        rw [if_neg hid]
        exact hdc
      · rw [if_neg hij] at hj
        have hdc := hg.depsComp j hj d hd
        have hid : ¬ i = d := by
          intro hc
          rw [← hc] at hdc
          rw [hpend] at hdc
          cases hdc
        rw [if_neg hid]
        exact hdc
    · intro j hj
      rw [hset] at hj ⊢
      by_cases hij : i = j
      · rw [if_pos hij] at hj
        cases hj
      · rw [if_neg hij] at hj ⊢
        exact hg.compOut j hj
    · intro j hj
      rw [hset] at hj ⊢
      by_cases hij : i = j
      · rw [if_pos hij] at hj
        cases hj
      · rw [if_neg hij] at hj ⊢
        exact hg.failOut j hj
    · intro j hjl hj
      rw [List.length_set] at hjl
      rw [hset] at hj ⊢
      by_cases hij : i = j
      · rw [if_pos hij] at hj
        cases hj
      · rw [if_neg hij] at hj ⊢
        obtain ⟨ha, d, hd, hbad⟩ := hg.skipDep j hjl hj
        refine ⟨ha, d, hd, ?_⟩
        have hid : ¬ i = d := by
          intro hc
          rw [← hc] at hbad
          rcases hbad with hb | hb <;> rw [hpend] at hb <;> cases hb
        rw [hset, if_neg hid]
        exact hbad

theorem SGood_set_complete {cfg : SConfig} {s : SState} {i : Nat} {v : JRec}
    (hrun : (getRec s.recs i).state = .running) (hg : SGood cfg s)
    (hinv : ResourceInv cfg (SState.mk (s.recs.set i v)
      (fun r => s.avail r + (jobAt cfg i).demand r)))
    (hvp : v.state = .pending → v.attempts < cfg.maxAttempts)
    (hvr : v.state ≠ .running)
    (hvc : v.state = .completed → cfg.outcome i (v.attempts - 1) = true)
    (hvf : v.state = .failedPerm →
      cfg.outcome i (v.attempts - 1) = false ∧
      v.attempts = cfg.maxAttempts)
    (hvs : v.state ≠ .skipped) :
    SGood cfg (SState.mk (s.recs.set i v)
      (fun r => s.avail r + (jobAt cfg i).demand r)) := by
  have hi : i < s.recs.length := lt_length_of_state_running hrun
  have hset : ∀ j, getRec (s.recs.set i v) j =
      if i = j then v else getRec s.recs j := by
    intro j
    by_cases hij : i = j
    · subst hij
      rw [getRec_set_self hi, if_pos rfl]
    · rw [getRec_set_ne hij, if_neg hij]
  refine ⟨hinv, by simpa using hg.len, ?_, ?_, ?_, ?_, ?_, ?_⟩
  · intro j hj
    rw [hset] at hj ⊢
    by_cases hij : i = j
    · rw [if_pos hij] at hj ⊢
      exact hvp hj
    · rw [if_neg hij] at hj ⊢
      exact hg.pendA j hj
  · intro j hj
    rw [hset] at hj ⊢
    by_cases hij : i = j
    · rw [if_pos hij] at hj
      exact absurd hj hvr
    · rw [if_neg hij] at hj ⊢
      exact hg.runA j hj
  · intro j hj d hd
    rw [hset] at hj
    rw [hset]
    by_cases hij : i = j
    · subst hij
      have hdc := hg.depsComp i (Or.inl hrun) d hd
      have hid : ¬ i = d := by
        intro hc
        rw [← hc] at hdc
        rw [hrun] at hdc
        cases hdc
      rw [if_neg hid]
      exact hdc
    · rw [if_neg hij] at hj
      have hdc := hg.depsComp j hj d hd
      have hid : ¬ i = d := by
        intro hc
        rw [← hc] at hdc
        rw [hrun] at hdc
        cases hdc
      rw [if_neg hid]
      exact hdc
  · intro j hj
    rw [hset] at hj ⊢
    by_cases hij : i = j
    · rw [if_pos hij] at hj ⊢
      subst hij
      exact hvc hj
    · rw [if_neg hij] at hj ⊢
      exact hg.compOut j hj
  · intro j hj
    rw [hset] at hj ⊢
    by_cases hij : i = j
    · rw [if_pos hij] at hj ⊢
      subst hij
      exact hvf hj
    · rw [if_neg hij] at hj ⊢
      exact hg.failOut j hj
  · intro j hjl hj
    rw [List.length_set] at hjl
    rw [hset] at hj ⊢
    by_cases hij : i = j
    · rw [if_pos hij] at hj
      exact absurd hj hvs
    · rw [if_neg hij] at hj ⊢
      obtain ⟨ha, d, hd, hbad⟩ := hg.skipDep j hjl hj
      refine ⟨ha, d, hd, ?_⟩
      have hid : ¬ i = d := by
        intro hc
        rw [← hc] at hbad
        rcases hbad with hb | hb <;> rw [hrun] at hb <;> cases hb
      rw [hset, if_neg hid]
      exact hbad

theorem SGood_completeJob {cfg : SConfig} {s : SState} (i : Nat)
    (hrun : (getRec s.recs i).state = .running) (hg : SGood cfg s) :
    SGood cfg (completeJob cfg s i) := by
  have hinv := ResourceInv_completeJob i hrun hg.inv
  have hattlt := hg.runA i hrun
  unfold completeJob at hinv ⊢
  by_cases hout : cfg.outcome i (getRec s.recs i).attempts = true
  · rw [if_pos hout] at hinv ⊢
    refine SGood_set_complete hrun hg hinv ?_ ?_ ?_ ?_ ?_
    · intro h; cases h
    · intro h; cases h
    · intro _; simpa using hout
    · intro h; cases h
    · intro h; cases h
  · rw [if_neg hout] at hinv ⊢
    by_cases hretry : (getRec s.recs i).attempts + 1 < cfg.maxAttempts
    · rw [if_pos hretry] at hinv ⊢
      refine SGood_set_complete hrun hg hinv ?_ ?_ ?_ ?_ ?_
      · intro _; exact hretry
      · intro h; cases h
      · intro h; cases h
      · intro h; cases h
      · intro h; cases h
    · rw [if_neg hretry] at hinv ⊢
      refine SGood_set_complete hrun hg hinv ?_ ?_ ?_ ?_ ?_
      · intro h; cases h
      · intro h; cases h
      · intro h; cases h
      · intro _
        constructor
        · simpa using Bool.eq_false_iff.mpr hout
        · show (getRec s.recs i).attempts + 1 = cfg.maxAttempts
          omega
      · intro h; cases h

theorem SGood_foldl_skip {cfg : SConfig} :
    ∀ (l : List Nat) (s : SState), SGood cfg s →
      SGood cfg { s with recs := l.foldl (skipOne cfg) s.recs } := by
  intro l
  induction l with
  | nil => intro s hg; exact hg
  | cons i l ih =>
    intro s hg
    exact ih { s with recs := skipOne cfg s.recs i } (SGood_skipOne i hg)

theorem SGood_skipMarkState {cfg : SConfig} {s : SState} (hg : SGood cfg s) :
    SGood cfg (skipMarkState cfg s) :=
  SGood_foldl_skip (List.range s.recs.length) s hg

theorem SGood_foldl_dispatch {cfg : SConfig} :
    ∀ (l : List Nat) (s : SState), SGood cfg s →
      SGood cfg (l.foldl (dispatchOne cfg) s) := by
  intro l
  induction l with
  | nil => intro s hg; exact hg
  | cons i l ih =>
    intro s hg
    exact ih (dispatchOne cfg s i) (SGood_dispatchOne i hg)

theorem SGood_dispatchPhase {cfg : SConfig} {s : SState} (hg : SGood cfg s) :
    SGood cfg (dispatchPhase cfg s) :=
  SGood_foldl_dispatch _ s hg

theorem SGood_init (cfg : SConfig) (hmax : 1 ≤ cfg.maxAttempts) :
    SGood cfg (initState cfg) := by
  have hstates : ∀ i, getRec (initState cfg).recs i = ⟨.pending, 0⟩ ∨
      getRec (initState cfg).recs i = ⟨.skipped, 0⟩ := by
    intro i
    by_cases hi : i < cfg.jobs.length
    · exact Or.inl (getRec_initState cfg hi)
    · right
      refine getRec_out_of_range ?_
      simpa [initState] using Nat.le_of_not_lt hi
  refine ⟨ResourceInv_init cfg, by simp [initState], ?_, ?_, ?_, ?_, ?_, ?_⟩
  · intro i hp
    rcases hstates i with h | h <;> rw [h] at hp ⊢
    · simpa using hmax
    · cases hp
  · intro i hr
    rcases hstates i with h | h <;> rw [h] at hr <;> cases hr
  · intro i hcond
    rcases hstates i with h | h <;> rw [h] at hcond <;>
      rcases hcond with hc | hc | hc <;> cases hc
  · intro i hc
    rcases hstates i with h | h <;> rw [h] at hc <;> cases hc
  · intro i hc
    rcases hstates i with h | h <;> rw [h] at hc <;> cases hc
  · intro i hil hc
    rw [(getRec_initState cfg (by simpa [initState] using hil) : _)] at hc
    cases hc

theorem smeasure_skipOne_le {cfg : SConfig} (s : SState) (i : Nat) :
    smeasure cfg { s with recs := skipOne cfg s.recs i } ≤ smeasure cfg s := by
  unfold skipOne
  split
  case isFalse => exact Nat.le_refl _
  case isTrue hcond =>
    have hi : i < s.recs.length := lt_length_of_state_pending hcond.1
    have hsum := sum_getRec_set (fun _ rec => jmeasure cfg rec)
      (v := ⟨.skipped, (getRec s.recs i).attempts⟩) hi
    unfold smeasure
    simp only [jmeasure] at hsum ⊢
    omega

theorem smeasure_dispatchOne_le {cfg : SConfig} (s : SState) (i : Nat) :
    smeasure cfg (dispatchOne cfg s i) ≤ smeasure cfg s := by
  unfold dispatchOne
  split
  case isFalse => exact Nat.le_refl _
  case isTrue hcond =>
    have hi : i < s.recs.length := lt_length_of_state_pending hcond.1.1
    have hsum := sum_getRec_set (fun _ rec => jmeasure cfg rec)
      (v := ⟨.running, (getRec s.recs i).attempts⟩) hi
    unfold smeasure
    simp only [jmeasure, hcond.1.1] at hsum ⊢
    omega

theorem smeasure_completeJob_lt {cfg : SConfig} {s : SState} {i : Nat}
    (hrun : (getRec s.recs i).state = .running)
    (hattlt : (getRec s.recs i).attempts < cfg.maxAttempts) :
    smeasure cfg (completeJob cfg s i) < smeasure cfg s := by
  have hi : i < s.recs.length := lt_length_of_state_running hrun
  unfold completeJob
  split
  · have hsum := sum_getRec_set (fun _ rec => jmeasure cfg rec)
      (v := ⟨.completed, (getRec s.recs i).attempts + 1⟩) hi
    unfold smeasure
    simp only [jmeasure] at hsum ⊢
    rw [hrun] at hsum
    simp only at hsum
    omega
  · split
    · have hsum := sum_getRec_set (fun _ rec => jmeasure cfg rec)
        (v := ⟨.pending, (getRec s.recs i).attempts + 1⟩) hi
      unfold smeasure
      simp only [jmeasure] at hsum ⊢
      rw [hrun] at hsum
      simp only at hsum
      omega
    · have hsum := sum_getRec_set (fun _ rec => jmeasure cfg rec)
        (v := ⟨.failedPerm, (getRec s.recs i).attempts + 1⟩) hi
      unfold smeasure
      simp only [jmeasure] at hsum ⊢
      rw [hrun] at hsum
      simp only at hsum
      omega

theorem smeasure_foldl_skip_le {cfg : SConfig} :
    ∀ (l : List Nat) (s : SState),
      smeasure cfg { s with recs := l.foldl (skipOne cfg) s.recs } ≤
        smeasure cfg s := by
  intro l
  induction l with
  | nil => intro s; exact Nat.le_refl _
  | cons i l ih =>
    intro s
    exact Nat.le_trans (ih { s with recs := skipOne cfg s.recs i })
      (smeasure_skipOne_le s i)

theorem smeasure_foldl_dispatch_le {cfg : SConfig} :
    ∀ (l : List Nat) (s : SState),
      smeasure cfg (l.foldl (dispatchOne cfg) s) ≤ smeasure cfg s := by
  intro l
  induction l with
  | nil => intro s; exact Nat.le_refl _
  | cons i l ih =>
    intro s
    exact Nat.le_trans (ih (dispatchOne cfg s i))
      (smeasure_dispatchOne_le s i)

theorem skipOne_length {cfg : SConfig} (recs : List JRec) (i : Nat) :
    (skipOne cfg recs i).length = recs.length := by
  unfold skipOne
  split
  · exact List.length_set recs i _
  · rfl

theorem foldl_skipOne_length {cfg : SConfig} :
    ∀ (l : List Nat) (recs : List JRec),
      (l.foldl (skipOne cfg) recs).length = recs.length := by
  intro l
  induction l with
  | nil => intro recs; rfl
  | cons i l ih =>
    intro recs
    rw [List.foldl_cons, ih, skipOne_length]

theorem getRec_skipOne_ne {cfg : SConfig} {recs : List JRec} {i j : Nat}
    (h : i ≠ j) : getRec (skipOne cfg recs i) j = getRec recs j := by
  unfold skipOne
  split
  · exact getRec_set_ne h
  · rfl

theorem getRec_foldl_skipOne_stable (cfg : SConfig) (recs : List JRec)
    (j : Nat) (m : Nat) :
    ∀ (m' : Nat), m ≤ m' → j < m →
      getRec ((List.range m').foldl (skipOne cfg) recs) j =
        getRec ((List.range m).foldl (skipOne cfg) recs) j := by
  intro m' hmm
  induction m', hmm using Nat.le_induction with
  | base => intro _; rfl
  | succ m' _ ih =>
    intro hjm
    rw [List.range_succ, List.foldl_append, List.foldl_cons, List.foldl_nil]
    rw [getRec_skipOne_ne (by omega)]
    exact ih hjm

theorem skipOne_pos {cfg : SConfig} {recs : List JRec} {i : Nat}
    (h : (getRec recs i).state = .pending ∧
      ∃ d ∈ (jobAt cfg i).deps,
        (getRec recs d).state = .failedPerm ∨
        (getRec recs d).state = .skipped) :
    skipOne cfg recs i =
      recs.set i ⟨.skipped, (getRec recs i).attempts⟩ := by
  unfold skipOne
  rw [if_pos h]

theorem skipOne_neg {cfg : SConfig} {recs : List JRec} {i : Nat}
    (h : ¬((getRec recs i).state = .pending ∧
      ∃ d ∈ (jobAt cfg i).deps,
        (getRec recs d).state = .failedPerm ∨
        (getRec recs d).state = .skipped)) :
    skipOne cfg recs i = recs := by
  unfold skipOne
  rw [if_neg h]

theorem dispatchOne_pos {cfg : SConfig} {s : SState} {j : Nat}
    (h : isReady cfg s.recs j ∧ fits cfg s.avail j) :
    dispatchOne cfg s j =
      SState.mk (s.recs.set j ⟨.running, (getRec s.recs j).attempts⟩)
        (fun r => s.avail r - (jobAt cfg j).demand r) := by
  unfold dispatchOne
  rw [if_pos h]

theorem dispatchOne_neg {cfg : SConfig} {s : SState} {j : Nat}
    (h : ¬(isReady cfg s.recs j ∧ fits cfg s.avail j)) :
    dispatchOne cfg s j = s := by
  unfold dispatchOne
  rw [if_neg h]

theorem skipMark_post {cfg : SConfig} (recs : List JRec)
    (hmono : ∀ i < cfg.jobs.length, ∀ d ∈ (jobAt cfg i).deps, d < i)
    (hlen : recs.length = cfg.jobs.length) :
    ∀ i, (getRec (skipMark cfg recs) i).state = .pending →
      ∀ d ∈ (jobAt cfg i).deps,
        (getRec (skipMark cfg recs) d).state ≠ .failedPerm ∧
        (getRec (skipMark cfg recs) d).state ≠ .skipped := by
  intro i hp d hd
  have hi : i < recs.length := by
    by_contra hc
    have hout : (skipMark cfg recs).length ≤ i := by
      unfold skipMark
      rw [foldl_skipOne_length]
      omega
    rw [getRec_out_of_range hout] at hp
    cases hp
  have hdi : d < i := hmono i (by omega) d hd
  have hstep : (List.range (i + 1)).foldl (skipOne cfg) recs =
      skipOne cfg ((List.range i).foldl (skipOne cfg) recs) i := by
    rw [List.range_succ, List.foldl_append, List.foldl_cons, List.foldl_nil]
  have hstable_i : getRec (skipMark cfg recs) i =
      getRec ((List.range (i + 1)).foldl (skipOne cfg) recs) i := by
    unfold skipMark
    exact getRec_foldl_skipOne_stable cfg recs i (i + 1) recs.length
      (by omega) (by omega)
  have hstable_d : getRec (skipMark cfg recs) d =
      getRec ((List.range i).foldl (skipOne cfg) recs) d := by
    unfold skipMark
    have h1 := getRec_foldl_skipOne_stable cfg recs d (d + 1)
      recs.length (by omega) (by omega)
    have h2 := getRec_foldl_skipOne_stable cfg recs d (d + 1) i
      (by omega) (by omega)
    rw [h1, ← h2]
  rw [hstable_i, hstep] at hp
  by_cases hguard :
      (getRec ((List.range i).foldl (skipOne cfg) recs) i).state = .pending ∧
      ∃ d' ∈ (jobAt cfg i).deps,
        (getRec ((List.range i).foldl (skipOne cfg) recs) d').state =
          .failedPerm ∨
        (getRec ((List.range i).foldl (skipOne cfg) recs) d').state = .skipped
  · exfalso
    rw [skipOne_pos hguard] at hp
    have hiA : i < ((List.range i).foldl (skipOne cfg) recs).length := by
      rw [foldl_skipOne_length]
      exact hi
    rw [getRec_set_self hiA] at hp
    cases hp
  · rw [skipOne_neg hguard] at hp
    rw [hstable_d]
    constructor
    · intro hcf
      exact hguard ⟨hp, d, hd, Or.inl hcf⟩
    · intro hcs
      exact hguard ⟨hp, d, hd, Or.inr hcs⟩

theorem getRec_dispatchOne_of_ne_running {cfg : SConfig} {s : SState}
    {j d : Nat}
    (h : (getRec (dispatchOne cfg s j).recs d).state ≠ .running) :
    getRec (dispatchOne cfg s j).recs d = getRec s.recs d := by
  by_cases hguard : isReady cfg s.recs j ∧ fits cfg s.avail j
  · rw [dispatchOne_pos hguard] at h ⊢
    by_cases hjd : j = d
    · subst hjd
      rw [getRec_set_self (lt_length_of_state_pending hguard.1.1)] at h
      simp at h
    · exact getRec_set_ne hjd
  · rw [dispatchOne_neg hguard]

theorem dispatchOne_running_persist {cfg : SConfig} {s : SState}
    {j i : Nat} (h : (getRec s.recs i).state = .running) :
    (getRec (dispatchOne cfg s j).recs i).state = .running := by
  by_cases hguard : isReady cfg s.recs j ∧ fits cfg s.avail j
  · rw [dispatchOne_pos hguard]
    by_cases hji : j = i
    · subst hji
      have hpend := hguard.1.1
      rw [h] at hpend
      cases hpend
    · dsimp only
      rw [getRec_set_ne hji]
      exact h
  · rw [dispatchOne_neg hguard]
    exact h

theorem foldl_dispatch_running_persist {cfg : SConfig} :
    ∀ (l : List Nat) (s : SState) {i : Nat},
      (getRec s.recs i).state = .running →
      (getRec (l.foldl (dispatchOne cfg) s).recs i).state = .running := by
  intro l
  induction l with
  | nil => intro s i h; exact h
  | cons j l ih =>
    intro s i h
    rw [List.foldl_cons]
    exact ih (dispatchOne cfg s j) (dispatchOne_running_persist h)

theorem foldl_dispatch_no_running {cfg : SConfig} :
    ∀ (l : List Nat) (s : SState),
      (∀ i, (getRec (l.foldl (dispatchOne cfg) s).recs i).state ≠ .running) →
      (∀ i, (getRec s.recs i).state ≠ .running) ∧
      (∀ j ∈ l, ¬(isReady cfg s.recs j ∧ fits cfg s.avail j)) := by
  intro l
  induction l with
  | nil =>
    intro s h
    exact ⟨h, by simp⟩
  | cons j l ih =>
    intro s h
    by_cases hguard : isReady cfg s.recs j ∧ fits cfg s.avail j
    · exfalso
      have hs1 : (getRec (dispatchOne cfg s j).recs j).state = .running := by
        rw [dispatchOne_pos hguard]
        rw [getRec_set_self (lt_length_of_state_pending hguard.1.1)]
      refine h j ?_
      rw [List.foldl_cons]
      exact foldl_dispatch_running_persist l (dispatchOne cfg s j) hs1
    · have hs1 : dispatchOne cfg s j = s := dispatchOne_neg hguard
      rw [List.foldl_cons, hs1] at h
      obtain ⟨h1, h2⟩ := ih s h
      refine ⟨h1, ?_⟩
      intro j' hj'
      rcases List.mem_cons.mp hj' with rfl | hmem
      · exact hguard
      · exact h2 j' hmem

theorem foldl_dispatch_preserve {cfg : SConfig} :
    ∀ (l : List Nat) (s : SState) (d : Nat),
      (getRec (l.foldl (dispatchOne cfg) s).recs d).state ≠ .running →
      getRec (l.foldl (dispatchOne cfg) s).recs d = getRec s.recs d := by
  intro l
  induction l with
  | nil => intro s d _; rfl
  | cons j l ih =>
    intro s d h
    rw [List.foldl_cons] at h ⊢
    have h1 := ih (dispatchOne cfg s j) d h
    rw [h1]
    refine getRec_dispatchOne_of_ne_running ?_
    rw [h1] at h
    exact h

theorem mem_insertByPriority {cfg : SConfig} {i j : Nat} :
    ∀ (l : List Nat), j ∈ insertByPriority cfg i l ↔ j = i ∨ j ∈ l := by
  intro l
  induction l with
  | nil => simp [insertByPriority]
  | cons k l ih =>
    unfold insertByPriority
    split
    · simp [List.mem_cons]
    · simp only [List.mem_cons, ih]
      tauto

theorem mem_sortByPriority {cfg : SConfig} :
    ∀ (l : List Nat) (j : Nat), j ∈ sortByPriority cfg l ↔ j ∈ l := by
  intro l
  induction l with
  | nil => intro j; simp [sortByPriority]
  | cons i l ih =>
    intro j
    unfold sortByPriority
    rw [mem_insertByPriority, ih, List.mem_cons]

theorem firstRunning_none {recs : List JRec} (h : firstRunning recs = none) :
    ∀ i, (getRec recs i).state ≠ .running := by
  intro i hi
  have hlen : i < recs.length := lt_length_of_state_running hi
  rw [firstRunning, List.find?_eq_none] at h
  exact h i (List.mem_range.mpr hlen) (by simp [hi])

theorem halt_no_pending {cfg : SConfig} {s1 : SState}
    (hmono : ∀ i < cfg.jobs.length, ∀ d ∈ (jobAt cfg i).deps, d < i)
    (hcap : ∀ i < cfg.jobs.length, ∀ r < cfg.nRes,
      (jobAt cfg i).demand r ≤ cfg.cap r)
    (hg : SGood cfg s1)
    (hpost : ∀ i, (getRec s1.recs i).state = .pending →
      ∀ d ∈ (jobAt cfg i).deps,
        (getRec s1.recs d).state ≠ .failedPerm ∧
        (getRec s1.recs d).state ≠ .skipped)
    (hnorun : ∀ i, (getRec (dispatchPhase cfg s1).recs i).state ≠ .running) :
    ∀ i, (getRec (dispatchPhase cfg s1).recs i).state ≠ .pending := by
  obtain ⟨hnorun1, hnodisp⟩ :=
    foldl_dispatch_no_running
      (sortByPriority cfg (List.range s1.recs.length)) s1 hnorun
  have hpres : ∀ d, getRec (dispatchPhase cfg s1).recs d = getRec s1.recs d :=
    fun d => foldl_dispatch_preserve
      (sortByPriority cfg (List.range s1.recs.length)) s1 d (hnorun d)
  have havail : ∀ r < cfg.nRes, cfg.cap r = s1.avail r := by
    intro r hr
    have hinv := hg.inv r hr
    have hzero : runningDemand cfg s1.recs r = 0 := by
      refine Finset.sum_eq_zero ?_
      intro j _
      rw [if_neg (hnorun1 j)]
    omega
  have hmain : ∀ i, (getRec s1.recs i).state ≠ .pending := by
    intro i
    induction i using Nat.strong_induction_on with
    | _ i ih =>
      intro hpend
      have hil : i < s1.recs.length := lt_length_of_state_pending hpend
      have hilj : i < cfg.jobs.length := by
        rw [← hg.len]
        exact hil
      have hready : isReady cfg s1.recs i := by
        refine ⟨hpend, ?_, hg.pendA i hpend⟩
        intro d hd
        have hdi : d < i := hmono i hilj d hd
        have h3 := hpost i hpend d hd
        cases hsd : (getRec s1.recs d).state
        · exact absurd hsd (ih d hdi)
        · exact absurd hsd (hnorun1 d)
        · rfl
        · exact absurd hsd h3.1
        · exact absurd hsd h3.2
      have hfits : fits cfg s1.avail i := by
        intro r hr
        rw [← havail r hr]
        exact hcap i hilj r hr
      exact hnodisp i
        ((mem_sortByPriority _ _).mpr (List.mem_range.mpr hil))
        ⟨hready, hfits⟩
  intro i hp
  rw [hpres i] at hp
  exact hmain i hp

theorem runLoop_terminal {cfg : SConfig}
    (hmono : ∀ i < cfg.jobs.length, ∀ d ∈ (jobAt cfg i).deps, d < i)
    (hcap : ∀ i < cfg.jobs.length, ∀ r < cfg.nRes,
      (jobAt cfg i).demand r ≤ cfg.cap r) :
    ∀ (fuel : Nat) (s : SState), SGood cfg s → smeasure cfg s ≤ fuel →
      SGood cfg (runLoop cfg fuel s) ∧
      ∀ i, (getRec (runLoop cfg fuel s).recs i).state ≠ .pending ∧
        (getRec (runLoop cfg fuel s).recs i).state ≠ .running := by
  intro fuel
  induction fuel with
  | zero =>
    intro s hg hm
    rw [runLoop]
    refine ⟨hg, ?_⟩
    intro i
    by_cases hil : i < s.recs.length
    · have hz : jmeasure cfg (getRec s.recs i) = 0 := by
        have hms : smeasure cfg s = 0 := Nat.le_zero.mp hm
        unfold smeasure at hms
        exact Finset.sum_eq_zero_iff.mp hms i (Finset.mem_range.mpr hil)
      constructor
      · intro hp
        have hlt := hg.pendA i hp
        unfold jmeasure at hz
        rw [hp] at hz
        simp only at hz
        omega
      · intro hr
        have hlt := hg.runA i hr
        unfold jmeasure at hz
        rw [hr] at hz
        simp only at hz
        omega
    · rw [getRec_out_of_range (Nat.le_of_not_lt hil)]
      exact ⟨by simp, by simp⟩
  | succ fuel ih =>
    intro s hg hm
    rw [runLoop]
    have hg1 := SGood_skipMarkState hg
    have hg2 := SGood_dispatchPhase hg1
    cases hfr :
        firstRunning (dispatchPhase cfg (skipMarkState cfg s)).recs with
    | none =>
      refine ⟨hg2, ?_⟩
      have hnorun := firstRunning_none hfr
      have hpost1 := skipMark_post s.recs hmono hg.len
      have hnopend := halt_no_pending hmono hcap hg1 hpost1 hnorun
      intro i
      exact ⟨hnopend i, hnorun i⟩
    | some j =>
      have hrun := firstRunning_running hfr
      have hg3 := SGood_completeJob j hrun hg2
      have hatt := hg2.runA j hrun
      have hdec := smeasure_completeJob_lt hrun hatt
      have hle1 : smeasure cfg (skipMarkState cfg s) ≤ smeasure cfg s :=
        smeasure_foldl_skip_le _ s
      have hle2 : smeasure cfg (dispatchPhase cfg (skipMarkState cfg s)) ≤
          smeasure cfg (skipMarkState cfg s) :=
        smeasure_foldl_dispatch_le _ _
      exact ih (completeJob cfg (dispatchPhase cfg (skipMarkState cfg s)) j)
        hg3 (by omega)

theorem reaches_cases {cfg : SConfig} {a b : Nat} (h : Reaches cfg a b) :
    a ∈ (jobAt cfg b).deps ∨
      ∃ c ∈ (jobAt cfg b).deps, Reaches cfg a c := by
  induction h with
  | step hd => exact Or.inl hd
  | trans h1 h2 ih1 ih2 =>
    rcases ih2 with hc | ⟨c, hc, hrc⟩
    · exact Or.inr ⟨_, hc, h1⟩
    · exact Or.inr ⟨c, hc, Reaches.trans h1 hrc⟩

theorem Reaches_lt {cfg : SConfig}
    (hmono : ∀ i < cfg.jobs.length, ∀ d ∈ (jobAt cfg i).deps, d < i) :
    ∀ {a b : Nat}, Reaches cfg a b → a < b := by
  intro a b h
  induction h with
  | step hd =>
    rename_i d j
    by_cases hj : j < cfg.jobs.length
    · exact hmono j hj d hd
    · exfalso
      have hnone : jobAt cfg j = ⟨[], fun _ => 0, 0⟩ := by
        unfold jobAt
        rw [List.getElem?_eq_none (Nat.le_of_not_lt hj)]
        rfl
      rw [hnone] at hd
      exact absurd hd (by simp)
  | trans h1 h2 ih1 ih2 => omega

theorem not_reaches_no_deps (cfg : SConfig) {b : Nat}
    (h : (jobAt cfg b).deps = []) : ∀ a, ¬ Reaches cfg a b := by
  intro a hr
  revert h
  induction hr with
  | step hd =>
    intro h
    rw [h] at hd
    exact absurd hd (by simp)
  | trans h1 h2 ih1 ih2 => intro h; exact ih2 h

theorem skipped_reaches {cfg : SConfig} {t : SState} {f : Nat}
    (hmono : ∀ i < cfg.jobs.length, ∀ d ∈ (jobAt cfg i).deps, d < i)
    (hg : SGood cfg t)
    (hfail_f : ∀ j, (getRec t.recs j).state = .failedPerm → j = f) :
    ∀ i, i < t.recs.length → (getRec t.recs i).state = .skipped →
      Reaches cfg f i := by
  intro i
  induction i using Nat.strong_induction_on with
  | _ i ih =>
    intro hil hsk
    obtain ⟨_, d, hd, hbad⟩ := hg.skipDep i hil hsk
    have hdi : d < i := by
      refine hmono i ?_ d hd
      rw [← hg.len]
      exact hil
    rcases hbad with hb | hb
    · have hdf : d = f := hfail_f d hb
      subst hdf
      exact Reaches.step hd
    · exact Reaches.trans (ih d hdi (by omega) hb) (Reaches.step hd)

theorem completed_ancestors {cfg : SConfig} {t : SState}
    (hg : SGood cfg t) :
    ∀ {a b : Nat}, Reaches cfg a b →
      (getRec t.recs b).state = .completed →
      (getRec t.recs a).state = .completed := by
  intro a b h
  induction h with
  | step hd =>
    intro hb
    exact hg.depsComp _ (Or.inr (Or.inl hb)) _ hd
  | trans h1 h2 ih1 ih2 => intro hc; exact ih1 (ih2 hc)

/-- Claim C7: under the default, non-strict configuration, when exactly
one job `f` fails permanently (its executor outcome is failure at every
attempt, exhausting the bounded retries) and every other job succeeds,
the terminal state of the scheduler run satisfies: every job in an
independent branch (not a transitive dependent of `f`) runs to
`completed`; `f` ends permanently failed with all its attempts used; and
every transitive dependent of `f` ends `skipped` — never dispatched
(zero attempts) and not marked failed. -/
theorem C7_partial_failure (cfg : SConfig) (f : Nat)
    (hmono : ∀ i < cfg.jobs.length, ∀ d ∈ (jobAt cfg i).deps, d < i)
    (hcap : ∀ i < cfg.jobs.length, ∀ r < cfg.nRes,
      (jobAt cfg i).demand r ≤ cfg.cap r)
    (hmax : 1 ≤ cfg.maxAttempts)
    (hout : ∀ i a, cfg.outcome i a = decide (i ≠ f))
    (fuel : Nat) (hfuel : smeasure cfg (initState cfg) ≤ fuel) :
    ∀ i < cfg.jobs.length,
      (¬ Reaches cfg f i → i ≠ f →
        (getRec (runLoop cfg fuel (initState cfg)).recs i).state =
          .completed) ∧
      (i = f →
        (getRec (runLoop cfg fuel (initState cfg)).recs i).state =
          .failedPerm ∧
        (getRec (runLoop cfg fuel (initState cfg)).recs i).attempts =
          cfg.maxAttempts) ∧
      (Reaches cfg f i →
        (getRec (runLoop cfg fuel (initState cfg)).recs i).state =
          .skipped ∧
        (getRec (runLoop cfg fuel (initState cfg)).recs i).attempts = 0) := by
  obtain ⟨hg, hterm⟩ := runLoop_terminal hmono hcap fuel (initState cfg)
    (SGood_init cfg hmax) hfuel
  have hfail_f : ∀ j,
      (getRec (runLoop cfg fuel (initState cfg)).recs j).state =
        .failedPerm → j = f := by
    intro j hj
    have h1 := (hg.failOut j hj).1
    rw [hout] at h1
    simpa using h1
  have hcomp_ne : ∀ j,
      (getRec (runLoop cfg fuel (initState cfg)).recs j).state =
        .completed → j ≠ f := by
    intro j hj
    have h1 := hg.compOut j hj
    rw [hout] at h1
    simpa using h1
  have hskipR := skipped_reaches hmono hg hfail_f
  intro i hi
  have hil : i < (runLoop cfg fuel (initState cfg)).recs.length := by
    rw [hg.len]
    exact hi
  refine ⟨?_, ?_, ?_⟩
  · intro hnr hne
    cases hs : (getRec (runLoop cfg fuel (initState cfg)).recs i).state
    · exact absurd hs (hterm i).1
    · exact absurd hs (hterm i).2
    · rfl
    · exact absurd (hfail_f i hs) hne
    · exact absurd (hskipR i hil hs) hnr
  · intro hif
    subst hif
    cases hs : (getRec (runLoop cfg fuel (initState cfg)).recs i).state
    · exact absurd hs (hterm i).1
    · exact absurd hs (hterm i).2
    · exact absurd rfl (hcomp_ne i hs)
    · exact ⟨rfl, (hg.failOut i hs).2⟩
    · exact absurd (Reaches_lt hmono (hskipR i hil hs)) (Nat.lt_irrefl i)
  · intro hre
    cases hs : (getRec (runLoop cfg fuel (initState cfg)).recs i).state
    · exact absurd hs (hterm i).1
    · exact absurd hs (hterm i).2
    · exact absurd rfl (hcomp_ne f (completed_ancestors hg hre hs))
    · exfalso
      have hif := hfail_f i hs
      subst hif
      exact absurd (Reaches_lt hmono hre) (Nat.lt_irrefl i)
    · exact ⟨rfl, (hg.skipDep i hil hs).1⟩

theorem C7_partial_failure_witness :
    ((getRec (runLoop cfg7 16 (initState cfg7)).recs 3).state =
        .completed) ∧
    ((getRec (runLoop cfg7 16 (initState cfg7)).recs 0).state =
        .failedPerm ∧
      (getRec (runLoop cfg7 16 (initState cfg7)).recs 0).attempts = 2) ∧
    ((getRec (runLoop cfg7 16 (initState cfg7)).recs 1).state =
        .skipped ∧
      (getRec (runLoop cfg7 16 (initState cfg7)).recs 1).attempts = 0) := by
  have hmono : ∀ i < cfg7.jobs.length, ∀ d ∈ (jobAt cfg7 i).deps, d < i := by
    decide
  have hcap : ∀ i < cfg7.jobs.length, ∀ r < cfg7.nRes,
      (jobAt cfg7 i).demand r ≤ cfg7.cap r := by
    decide
  have hout : ∀ i a, cfg7.outcome i a = decide (i ≠ 0) := fun i a => rfl
  have hfuel : smeasure cfg7 (initState cfg7) ≤ 16 := by decide
  have h3 := C7_partial_failure cfg7 0 hmono hcap (by decide) hout 16 hfuel 3
    (by decide)
  have h0 := C7_partial_failure cfg7 0 hmono hcap (by decide) hout 16 hfuel 0
    (by decide)
  have h1 := C7_partial_failure cfg7 0 hmono hcap (by decide) hout 16 hfuel 1
    (by decide)
  have hnr : ¬ Reaches cfg7 0 3 := by
    intro h
    have hdeps3 : (jobAt cfg7 3).deps = [2] := rfl
    rcases reaches_cases h with hmem | ⟨c, hc, hrc⟩
    · rw [hdeps3] at hmem
      exact absurd hmem (by decide)
    · rw [hdeps3] at hc
      have hc2 : c = 2 := by simpa using hc
      subst hc2
      exact not_reaches_no_deps cfg7 (b := 2) (by rfl) 0 hrc
  refine ⟨?_, ?_, ?_⟩
  · exact h3.1 hnr (by decide)
  · exact h0.2.1 rfl
  · exact h1.2.2 (Reaches.step (by decide))

end Snakemake
